import Mathlib

/-!
Verification of the localllm chat frontend.

The development shallowly embeds the client-side logic of the repository:
the SSE stream decoder (`processStreamResponse`), the regex-chain Markdown
renderer (`formatMarkdown` together with `escapeHtml`), and the
conversation-store operations (`createNewChat`, the exchange push inside
`sendMessage`, the reset handler, and `sendMessage` itself).

Strings are modelled as `List Char`.  Each definition mirrors the
corresponding JavaScript function; regex replaces are implemented as
explicit scanners with the same matching semantics (leftmost match,
non-greedy captures, `.` excluding line terminators, multiline `^`/`$`
anchored at `\n`/`\r`).
-/

namespace LocalLLM

/-- The apostrophe character, built from its code point. -/
def apos : Char := Char.ofNat 39

/-- The backtick character, built from its code point. -/
def btick : Char := Char.ofNat 96

/-- JavaScript whitespace recognised by `String.prototype.trim` (the ASCII
part: space, tab, LF, CR, vertical tab, form feed). -/
def wsChar (c : Char) : Bool :=
  c = ' ' || c = '\t' || c = '\n' || c = '\r' || c = Char.ofNat 11 || c = Char.ofNat 12

/-- `String.prototype.trim`: drop whitespace from both ends. -/
def jsTrim (l : List Char) : List Char :=
  ((l.dropWhile wsChar).reverse.dropWhile wsChar).reverse

/-- Boolean string-prefix test (`String.prototype.startsWith`). -/
def startsWith : List Char → List Char → Bool
  | [], _ => true
  | _ :: _, [] => false
  | p :: ps, c :: cs => p == c && startsWith ps cs

/-! ### Stream decoder (`processStreamResponse`) -/

/-- `partialChunk.split(/\r?\n/)` followed by `lines.pop()`: the complete
lines and the retained final (possibly incomplete) fragment.  A `\r`
immediately followed by `\n` is one separator; a lone `\r` is ordinary
line content, exactly as for the JavaScript regex. -/
def lineSplit : List Char → List (List Char) × List Char
  | [] => ([], [])
  | '\r' :: '\n' :: rest => ([] :: (lineSplit rest).1, (lineSplit rest).2)
  | '\n' :: rest => ([] :: (lineSplit rest).1, (lineSplit rest).2)
  | c :: rest =>
    match lineSplit rest with
    | ([], b) => ([], c :: b)
    | (l :: ls, b) => ((c :: l) :: ls, b)

/-- The literal prefix `"data: "`. -/
def dataPref : List Char := "data: ".toList

/-- The `"[DONE]"` sentinel payload. -/
def doneTok : List Char := "[DONE]".toList

/-- One iteration of the line loop: `none` for a blank or non-`data:` line,
otherwise the trimmed payload (`line.replace('data: ', '').trim()`; the
first occurrence of `"data: "` is the checked prefix, so the replace is a
six-character drop). -/
def lineData (l : List Char) : Option (List Char) :=
  if jsTrim l = [] then none
  else if startsWith dataPref l then some (jsTrim (l.drop 6))
  else none

/-- Does this line carry the `[DONE]` sentinel payload? -/
def isDoneLine (l : List Char) : Bool := lineData l == some doneTok

/-- The `for (const line of lines)` body: emit payloads in order; the
`[DONE]` sentinel `break`s out of the loop over this batch of lines. -/
def processLines : List (List Char) → List (List Char)
  | [] => []
  | l :: ls =>
    match lineData l with
    | none => processLines ls
    | some d => if d = doneTok then [] else d :: processLines ls

/-- Decoder state carried across chunk reads: the partial-line buffer and
the payloads extracted so far. -/
structure DecState where
  buffer : List Char
  payloads : List (List Char)
deriving DecidableEq

/-- Processing of one received chunk: append to the buffer, split on line
boundaries and keep the final fragment, then run the line loop on the
complete lines of this batch. -/
def feedChunk (st : DecState) (chunk : List Char) : DecState :=
  let sp := lineSplit (st.buffer ++ chunk)
  { buffer := sp.2, payloads := st.payloads ++ processLines sp.1 }

/-- The whole `while (true)` read loop over a finite chunk sequence. -/
def runDecoder (chunks : List (List Char)) : DecState :=
  chunks.foldl feedChunk ⟨[], []⟩

/-- One server-sent event frame `data: <p>\n\n`. -/
def sseFrame (p : List Char) : List Char := dataPref ++ p ++ ['\n', '\n']

/-- A complete stream text: `N` payload frames followed by the
`data: [DONE]` frame. -/
def sseText (ps : List (List Char)) : List Char :=
  (ps.map sseFrame).flatten ++ sseFrame doneTok

/-- A well-formed payload: fits on one line and is not the sentinel. -/
def wfPayload (p : List Char) : Prop :=
  '\n' ∉ p ∧ '\r' ∉ p ∧ jsTrim p ≠ doneTok

instance (p : List Char) : Decidable (wfPayload p) :=
  inferInstanceAs (Decidable ('\n' ∉ p ∧ '\r' ∉ p ∧ jsTrim p ≠ doneTok))

/-- All lines are blank. -/
def allBlank (ls : List (List Char)) : Bool := ls.all (fun l => jsTrim l == [])

/-- After any `[DONE]` line, only blank lines follow. -/
def blankAfterDone : List (List Char) → Bool
  | [] => true
  | l :: ls => if isDoneLine l then allBlank ls else blankAfterDone ls

/-- Does some line of the batch carry the sentinel? -/
def hasDoneLine (ls : List (List Char)) : Bool := ls.any isDoneLine

/-! ### Markdown renderer (`escapeHtml`, `formatMarkdown`) -/

/-- Per-character image of the `escapeHtml` regex replace. -/
def escChar (c : Char) : List Char :=
  if c = '&' then "&amp;".toList
  else if c = '<' then "&lt;".toList
  else if c = '>' then "&gt;".toList
  else if c = '"' then "&quot;".toList
  else if c = apos then "&#039;".toList
  else [c]

/-- `escapeHtml`: the global replace of `[&<"'>]` by HTML entities. -/
def escapeHtml (l : List Char) : List Char := l.flatMap escChar

/-- The part_000 `escapeHtml` at its public interface: the optional
chaining plus the or-default returns the empty string on null/undefined. -/
def escapeHtmlNullable (u : Option (List Char)) : List Char :=
  match u with
  | none => []
  | some s => escapeHtml s

/-- Split off the leading line segment; multiline `^`/`$` boundaries are
the JavaScript LineTerminators `\n` and `\r`.  Returns the segment and the
rest (which starts with the separator when non-empty). -/
def breakLine : List Char → List Char × List Char
  | [] => ([], [])
  | c :: rest =>
    if c = '\n' || c = '\r' then ([], c :: rest)
    else ((breakLine rest).1.cons c, (breakLine rest).2)

/-- Apply a per-line transform to every line segment, keeping the
separators: the model of one `/^.../gm` replace pass. -/
def mapLines (f : List Char → List Char) (l : List Char) : List Char :=
  if h : (breakLine l).2 = [] then f (breakLine l).1
  else
    f (breakLine l).1 ++ (breakLine l).2.head h :: mapLines f ((breakLine l).2.tail)
termination_by l.length
decreasing_by
  have key : ∀ m : List Char, (breakLine m).2.length ≤ m.length := by
    intro m
    induction m with
    | nil => simp [breakLine]
    | cons c2 r ih =>
      by_cases hc : (c2 = '\n' || c2 = '\r') = true
      · simp [breakLine, hc]
      · simp [breakLine, hc]
        omega
  have h2 := key l
  rcases hr : (breakLine l).2 with _ | ⟨c2, r⟩
  · exact absurd hr h
  · rw [hr] at h2
    simp only [hr, List.tail_cons]
    simp only [List.length_cons] at h2
    omega

/-- `/^### (.*$)/gm` on one line segment. -/
def h3Seg (seg : List Char) : List Char :=
  if startsWith "### ".toList seg
  then "<h3>".toList ++ seg.drop 4 ++ "</h3>".toList else seg

/-- `/^## (.*$)/gm` on one line segment. -/
def h2Seg (seg : List Char) : List Char :=
  if startsWith "## ".toList seg
  then "<h2>".toList ++ seg.drop 3 ++ "</h2>".toList else seg

/-- `/^# (.*$)/gm` on one line segment. -/
def h1Seg (seg : List Char) : List Char :=
  if startsWith "# ".toList seg
  then "<h1>".toList ++ seg.drop 2 ++ "</h1>".toList else seg

/-- `/^- (.*)/gm` on one line segment: each matching line becomes its own
single-item unordered list. -/
def listSeg (seg : List Char) : List Char :=
  if startsWith "- ".toList seg
  then "<ul><li>".toList ++ seg.drop 2 ++ "</li></ul>".toList else seg

/-- Close search for `/\*\*(.*?)\*\*/`: the index of the first adjacent
`**` reachable without crossing a line terminator (`.` excludes `\n` and
`\r`), i.e. the length of the non-greedy capture. -/
def findBB : List Char → Option Nat
  | [] => none
  | [_] => none
  | c :: d :: rest =>
    if c = '*' && d = '*' then some 0
    else if c = '\n' || c = '\r' then none
    else (findBB (d :: rest)).map (· + 1)

/-- Close search for `/\*(.*?)\*/`: the index of the first `*` reachable
without crossing a line terminator. -/
def findIT : List Char → Option Nat
  | [] => none
  | c :: rest =>
    if c = '*' then some 0
    else if c = '\n' || c = '\r' then none
    else (findIT rest).map (· + 1)

/-- Close search for ``/`((.|\n)*?)`/``: the index of the first backtick;
`(.|\n)` matches everything except `\r`. -/
def findIC : List Char → Option Nat
  | [] => none
  | c :: rest =>
    if c = btick then some 0
    else if c = '\r' then none
    else (findIC rest).map (· + 1)

/-- Close search for the fenced-block rule: the index of the first triple
backtick; `[\s\S]` matches every character. -/
def findFC : List Char → Option Nat
  | [] => none
  | [_] => none
  | [_, _] => none
  | c :: d :: e :: rest =>
    if c = btick && d = btick && e = btick then some 0
    else (findFC (d :: e :: rest)).map (· + 1)

/-- `/\*\*(.*?)\*\*/g`: global scan; on a failed opener the engine advances
a single position. -/
def boldGo : List Char → List Char
  | [] => []
  | [c] => [c]
  | c :: d :: rest =>
    if c = '*' && d = '*' then
      match findBB rest with
      | some i =>
        "<strong>".toList ++ rest.take i ++ "</strong>".toList ++
          boldGo (rest.drop (i + 2))
      | none => c :: boldGo (d :: rest)
    else c :: boldGo (d :: rest)
termination_by l => l.length
decreasing_by
  · simp [List.length_drop]; omega
  · simp
  · simp

/-- `/\*(.*?)\*/g`. -/
def italicGo : List Char → List Char
  | [] => []
  | c :: rest =>
    if c = '*' then
      match findIT rest with
      | some i =>
        "<em>".toList ++ rest.take i ++ "</em>".toList ++
          italicGo (rest.drop (i + 1))
      | none => c :: italicGo rest
    else c :: italicGo rest
termination_by l => l.length
decreasing_by
  · simp [List.length_drop]; omega
  · simp
  · simp

/-- ``/`((.|\n)*?)`/g``. -/
def inlineGo : List Char → List Char
  | [] => []
  | c :: rest =>
    if c = btick then
      match findIC rest with
      | some i =>
        "<code>".toList ++ rest.take i ++ "</code>".toList ++
          inlineGo (rest.drop (i + 1))
      | none => c :: inlineGo rest
    else c :: inlineGo rest
termination_by l => l.length
decreasing_by
  · simp [List.length_drop]; omega
  · simp
  · simp

/-- The replacement template of the fenced-block rule, with the code
escaped a second time in both the copy button and the code body. -/
def fenceTemplate (code : List Char) : List Char :=
  ("\n            <div class=\"code-block\">\n                " ++
   "<button class=\"copy-btn\" onclick=\"copyToClipboard(").toList
  ++ [apos] ++ escapeHtml code ++ [apos] ++
  (")\">\n                    Copy Code\n                </button>\n" ++
   "                <pre><code>").toList
  ++ escapeHtml code ++
  "</code></pre>\n            </div>\n        ".toList

/-- ``/```([\s\S]*?)```/g``. -/
def fenceGo : List Char → List Char
  | [] => []
  | [c] => [c]
  | [c, d] => [c, d]
  | c :: d :: e :: rest =>
    if c = btick && d = btick && e = btick then
      match findFC rest with
      | some i => fenceTemplate (rest.take i) ++ fenceGo (rest.drop (i + 3))
      | none => c :: fenceGo (d :: e :: rest)
    else c :: fenceGo (d :: e :: rest)
termination_by l => l.length
decreasing_by
  · simp [List.length_drop]; omega
  · simp
  · simp

/-- `formatMarkdown`: the chained regex replaces, in source order —
`h3`, `h2`, `h1`, bold, italic, inline code, fenced blocks, list items. -/
def formatMarkdown (t : List Char) : List Char :=
  mapLines listSeg
    (fenceGo
      (inlineGo
        (italicGo
          (boldGo
            (mapLines h1Seg
              (mapLines h2Seg
                (mapLines h3Seg t)))))))

/-! ### HTML-injection safety predicate -/

/-- The tag texts following a `<` that `formatMarkdown` can emit. -/
def tagRems : List (List Char) :=
  ["h1>", "h2>", "h3>", "/h1>", "/h2>", "/h3>", "strong>", "/strong>",
   "em>", "/em>", "code>", "/code>", "ul>", "/ul>", "li>", "/li>"].map
    String.toList

/-- The entity texts following a `&` that `escapeHtml` can emit. -/
def entTails : List (List Char) :=
  ["amp;", "lt;", "gt;", "quot;", "#039;"].map String.toList

/-- Left-to-right scan: every `<` must open one of the known markup tags
(whose body, including its closing `>`, is skipped), every other `>` is an
unescaped angle bracket and fails, and every `&` must start one of the
five HTML entities.  `tokOk t = true` means every `<`, `>`, `&` of `t`
lies inside renderer-inserted markup or an HTML entity. -/
def tokOk : List Char → Bool
  | [] => true
  | c :: rest =>
    if c = '<' then
      match tagRems.find? (fun r => startsWith r rest) with
      | some r => tokOk (rest.drop r.length)
      | none => false
    else if c = '>' then false
    else if c = '&' then
      entTails.any (fun e => startsWith e rest) && tokOk rest
    else tokOk rest
termination_by l => l.length
decreasing_by
  · simp [List.length_drop]; omega
  · simp
  · simp

/-- Characters at which the markdown scanners cut their input: these occur
in no tag text and no entity text, so cutting there never tears markup. -/
def cutChar (c : Char) : Bool :=
  c = '*' || c = btick || c = '\n' || c = '\r'

/-- Characters that the `tokOk` scan passes over unconditionally. -/
def plainChar (c : Char) : Bool :=
  !(c = '<' || c = '>' || c = '&')

/-- Adjacent double backtick somewhere in the text. -/
def hasBB : List Char → Bool
  | [] => false
  | [_] => false
  | c :: d :: rest => (c = btick && d = btick) || hasBB (d :: rest)

/-- Triple backtick somewhere in the text. -/
def hasFence : List Char → Bool
  | [] => false
  | [_] => false
  | [_, _] => false
  | c :: d :: e :: rest =>
    (c = btick && d = btick && e = btick) || hasFence (d :: e :: rest)

/-! ### Conversation store and `sendMessage` -/

/-- One question/answer pair. -/
structure Exchange where
  question : List Char
  answer : List Char
deriving DecidableEq

/-- One chat: display name and ordered exchange list. -/
structure Chat where
  name : List Char
  messages : List Exchange
deriving DecidableEq

/-- The global mutable state of app.js: the `chats` object (modelled as an
insertion-ordered association list with unique keys), the active chat id,
the selected model and the prompt input field. -/
structure AppState where
  chats : List (List Char × Chat)
  currentChatId : List Char
  selectedModel : Option (List Char)
  userInput : List Char
deriving DecidableEq

/-- `chats[id]` lookup (keys are unique, so first match suffices). -/
def findChat : List (List Char × Chat) → List Char → Option Chat
  | [], _ => none
  | e :: t, id => if e.1 = id then some e.2 else findChat t id

/-- Does the key exist? -/
def hasChat : List (List Char × Chat) → List Char → Bool
  | [], _ => false
  | e :: t, id => e.1 = id || hasChat t id

/-- `chats[id] = c`: replace the entry if the key exists, else append. -/
def setChat (cs : List (List Char × Chat)) (id : List Char) (c : Chat) :
    List (List Char × Chat) :=
  if hasChat cs id then cs.map (fun e => if e.1 = id then (e.1, c) else e)
  else cs ++ [(id, c)]

/-- In-place mutation of the chat stored under `id` (no-op if absent). -/
def modifyChat (cs : List (List Char × Chat)) (id : List Char)
    (f : Chat → Chat) : List (List Char × Chat) :=
  cs.map (fun e => if e.1 = id then (e.1, f e.2) else e)

/-- `createNewChat` from app.js: an empty name aborts, otherwise a chat
with a fresh id and empty message list is stored and becomes active. -/
def createNewChat (st : AppState) (chatId chatName : List Char) : AppState :=
  if chatName = [] then st
  else
    { st with
      chats := setChat st.chats chatId ⟨chatName, []⟩
      currentChatId := chatId }

/-- The exchange push of `sendMessage`: lazily create an `"Unnamed Chat"`
for a dangling active id, then push `{ question, answer: "" }`. -/
def appendExchange (st : AppState) (q : List Char) : AppState :=
  let cs :=
    if (findChat st.chats st.currentChatId).isNone then
      setChat st.chats st.currentChatId ⟨"Unnamed Chat".toList, []⟩
    else st.chats
  { st with
    chats := modifyChat cs st.currentChatId
      (fun c => { c with messages := c.messages ++ [⟨q, []⟩] }) }

/-- Result of the `/reset_chat` request. -/
inductive ResetOutcome
  | ok
  | err (msg : List Char)
deriving DecidableEq

/-- The reset button handler: on an ok response the chat keeps its identity
and name but its message list is cleared; on an error an alert is shown
and nothing changes. -/
def resetChat (st : AppState) (chatId : List Char) (o : ResetOutcome) :
    AppState × List (List Char) :=
  match o with
  | .ok =>
    ({ st with
       chats := modifyChat st.chats chatId (fun c => { c with messages := [] }) },
     [])
  | .err m => (st, [m])

/-- Result of the `/stream_chat` fetch: a thrown error (non-2xx status
text or network-level failure message) or a 2xx response whose body
arrives as the given chunks. -/
inductive FetchOutcome
  | fail (msg : List Char)
  | stream (chunks : List (List Char))
deriving DecidableEq

/-- Observable outcome of one `sendMessage` call. -/
structure SendResult where
  state : AppState
  fetchAttempts : Nat
  alerts : List (List Char)
  indicator : Bool
  rawText : List Char
deriving DecidableEq

/-- Overwrite the answer of the most recent exchange (the catch branch of
`sendMessage`). -/
def setLastAnswer (c : Chat) (a : List Char) : Chat :=
  match c.messages.getLast? with
  | none => c
  | some e => { c with messages := c.messages.dropLast ++ [{ e with answer := a }] }

/-- Append one decoded payload plus newline to the most recent exchange
(the per-payload mutation of `processStreamResponse`). -/
def appendLastAnswer (c : Chat) (d : List Char) : Chat :=
  match c.messages.getLast? with
  | none => c
  | some e =>
    { c with
      messages := c.messages.dropLast ++ [{ e with answer := e.answer ++ d ++ ['\n'] }] }

/-- Mutate the active chat in place. -/
def applyActive (st : AppState) (f : Chat → Chat) : AppState :=
  { st with chats := modifyChat st.chats st.currentChatId f }

/-- The model-selection alert text. -/
def alertModelMsg : List Char := "Please select a model first".toList

/-- `sendMessage` from app.js: trim the prompt; an empty prompt returns
silently; a missing model alerts and returns; otherwise push the exchange,
clear the input, show the streaming indicator, perform exactly one fetch
and either record the error string as the answer (catch) or run the
stream decoder, appending each payload plus newline to the answer; the
indicator is removed when the stream loop finishes but not in the catch
branch. -/
def sendMessage (st : AppState) (outcome : FetchOutcome) : SendResult :=
  let promptT := jsTrim st.userInput
  if promptT = [] then
    { state := st, fetchAttempts := 0, alerts := [], indicator := false,
      rawText := [] }
  else
    match st.selectedModel with
    | none =>
      { state := st, fetchAttempts := 0, alerts := [alertModelMsg],
        indicator := false, rawText := [] }
    | some _ =>
      let st2 := { appendExchange st promptT with userInput := [] }
      match outcome with
      | .fail msg =>
        { state := applyActive st2 (fun c => setLastAnswer c ("Error: ".toList ++ msg))
          fetchAttempts := 1, alerts := [], indicator := true, rawText := [] }
      | .stream chunks =>
        let dec := runDecoder chunks
        { state := applyActive st2 (fun c => dec.payloads.foldl appendLastAnswer c)
          fetchAttempts := 1, alerts := [], indicator := false,
          rawText := (dec.payloads.map (fun d => d ++ ['\n'])).flatten }

/-- The chat under the active pointer. -/
def activeChat (st : AppState) : Option Chat := findChat st.chats st.currentChatId

/-- Message count of the active chat (0 when no chat is active). -/
def activeCount (st : AppState) : Nat :=
  (activeChat st).elim 0 (fun c => c.messages.length)

/-- Name of the active chat. -/
def activeName (st : AppState) : Option (List Char) := (activeChat st).map Chat.name

/-- Stored answer of the most recent exchange of the active chat. -/
def lastAnswer (st : AppState) : Option (List Char) :=
  (activeChat st).bind (fun c => c.messages.getLast?.map Exchange.answer)

/-- Total number of stored exchanges, over all chats. -/
def totalEntries (st : AppState) : Nat :=
  (st.chats.map (fun e => e.2.messages.length)).sum

/-- Maximal runs of whitespace in rendered HTML text display as a single
space (leading and trailing runs display as nothing): the browser
whitespace collapsing applied to a rendered answer. -/
def wsWords : List Char → List (List Char)
  | [] => [[]]
  | c :: rest =>
    if wsChar c then [] :: wsWords rest
    else
      match wsWords rest with
      | [] => [[c]]
      | w :: ws => (c :: w) :: ws

/-- Join words with single spaces. -/
def joinSp : List (List Char) → List Char
  | [] => []
  | [w] => w
  | w :: ws => w ++ ' ' :: joinSp ws

/-- Whitespace-collapsed display text of a rendered answer. -/
def collapseWs (l : List Char) : List Char :=
  joinSp ((wsWords l).filter (fun w => !w.isEmpty))

/-- The `^`-anchored line segments of a text (multiline regex semantics). -/
def lineSegs (l : List Char) : List (List Char) :=
  if h : (breakLine l).2 = [] then [(breakLine l).1]
  else (breakLine l).1 :: lineSegs ((breakLine l).2.tail)
termination_by l.length
decreasing_by
  have key : ∀ m : List Char, (breakLine m).2.length ≤ m.length := by
    intro m
    induction m with
    | nil => simp [breakLine]
    | cons c2 r ih =>
      by_cases hc : (c2 = '\n' || c2 = '\r') = true
      · simp [breakLine, hc]
      · simp [breakLine, hc]
        omega
  have h2 := key l
  rcases hr : (breakLine l).2 with _ | ⟨c2, r⟩
  · exact absurd hr h
  · rw [hr] at h2
    simp only [hr, List.tail_cons]
    simp only [List.length_cons] at h2
    omega

/-- Payloads emitted batch-by-batch by the decoder run, starting from a
given partial-line buffer. -/
def decBatches (b : List Char) : List (List Char) → List (List Char)
  | [] => []
  | c :: cs =>
    processLines (lineSplit (b ++ c)).1 ++ decBatches (lineSplit (b ++ c)).2 cs

/-- The complete-line list of an SSE stream text: each payload frame
contributes its `data:` line and a blank line, then the sentinel frame. -/
def sseLineList (ps : List (List Char)) : List (List Char) :=
  ps.flatMap (fun p => [dataPref ++ p, []]) ++ [dataPref ++ doneTok, []]

end LocalLLM

namespace LocalLLM

/-! ## Theorems -/

/-! ### `startsWith` infrastructure -/

theorem sw_append_self (p t : List Char) : startsWith p (p ++ t) = true := by
  induction p with
  | nil => simp [startsWith]
  | cons a ps ih => simp [startsWith, ih]

theorem sw_length {p l : List Char} (h : startsWith p l = true) :
    p.length ≤ l.length := by
  induction p generalizing l with
  | nil => simp
  | cons a ps ih =>
    cases l with
    | nil => simp [startsWith] at h
    | cons c cs =>
      simp only [startsWith, Bool.and_eq_true] at h
      have := ih h.2
      simp only [List.length_cons]
      omega

theorem sw_eq_append {p l : List Char} (h : startsWith p l = true) :
    l = p ++ l.drop p.length := by
  induction p generalizing l with
  | nil => simp
  | cons a ps ih =>
    cases l with
    | nil => simp [startsWith] at h
    | cons c cs =>
      simp only [startsWith, Bool.and_eq_true, beq_iff_eq] at h
      have h2 := ih h.2
      simp only [List.length_cons, List.drop_succ_cons, List.cons_append,
        h.1]
      exact congrArg _ h2

theorem sw_extend {p x : List Char} (h : startsWith p x = true)
    (y : List Char) : startsWith p (x ++ y) = true := by
  have h2 := sw_eq_append h
  rw [h2, List.append_assoc]
  exact sw_append_self _ _

theorem sw_restrict {p x y : List Char} (h : startsWith p (x ++ y) = true)
    (hl : p.length ≤ x.length) : startsWith p x = true := by
  induction p generalizing x with
  | nil => simp [startsWith]
  | cons a ps ih =>
    cases x with
    | nil => simp at hl
    | cons c cs =>
      simp only [List.cons_append, startsWith, Bool.and_eq_true] at h ⊢
      simp only [List.length_cons] at hl
      exact ⟨h.1, ih h.2 (by omega)⟩

theorem sw_of_le {a b l : List Char} (ha : startsWith a l = true)
    (hb : startsWith b l = true) (hab : a.length ≤ b.length) :
    startsWith a b = true := by
  rw [sw_eq_append hb] at ha
  exact sw_restrict ha hab

theorem mem_of_sw_long {r m y : List Char} {c : Char}
    (h : startsWith r (m ++ c :: y) = true) (hl : m.length < r.length) :
    c ∈ r := by
  induction m generalizing r with
  | nil =>
    cases r with
    | nil => simp at hl
    | cons a rs =>
      simp only [List.nil_append, startsWith, Bool.and_eq_true,
        beq_iff_eq] at h
      simp [h.1]
  | cons d m2 ih =>
    cases r with
    | nil => simp at hl
    | cons a rs =>
      simp only [List.cons_append, startsWith, Bool.and_eq_true] at h
      simp only [List.length_cons] at hl
      exact List.mem_cons_of_mem _ (ih h.2 (by omega))

/-- The tag texts are mutually prefix-free. -/
theorem tagRems_pf : ∀ r1 ∈ tagRems, ∀ r2 ∈ tagRems,
    startsWith r1 r2 = true → r1 = r2 := by decide

/-- No scanner cut character occurs in any tag text. -/
theorem cut_rems : ∀ r ∈ tagRems, ∀ c ∈ r, cutChar c = false := by decide

/-- No scanner cut character occurs in any entity text. -/
theorem cut_tails : ∀ e ∈ entTails, ∀ c ∈ e, cutChar c = false := by decide

/-- Entity texts consist of `tokOk`-plain characters. -/
theorem tails_plain : ∀ e ∈ entTails, ∀ c ∈ e, plainChar c = true := by decide

/-- Tag texts contain no `*` and no backtick. -/
theorem rems_no_cut : ∀ r ∈ tagRems, '*' ∉ r ∧ btick ∉ r := by decide

theorem findCongr {α} (p q : α → Bool) (l : List α)
    (h : ∀ a ∈ l, p a = q a) : l.find? p = l.find? q := by
  induction l with
  | nil => rfl
  | cons a t ih =>
    have ha := h a (List.mem_cons_self a t)
    by_cases hp : p a = true
    · rw [List.find?_cons_of_pos _ hp, List.find?_cons_of_pos _ (ha ▸ hp)]
    · rw [List.find?_cons_of_neg _ (by simpa using hp),
        List.find?_cons_of_neg _ (by rw [← ha]; simpa using hp)]
      exact ih (fun a2 h2 => h a2 (List.mem_cons_of_mem _ h2))

theorem findUnique {α} [DecidableEq α] (p : α → Bool) (l : List α)
    (r : α) (hr : r ∈ l) (hp : p r = true)
    (hu : ∀ e ∈ l, p e = true → e = r) : l.find? p = some r := by
  induction l with
  | nil => simp at hr
  | cons a t ih =>
    by_cases hpa : p a = true
    · rw [List.find?_cons_of_pos _ hpa]
      exact congrArg some (hu a (List.mem_cons_self a t) hpa)
    · rw [List.find?_cons_of_neg _ (by simpa using hpa)]
      rcases List.mem_cons.mp hr with h | h
      · exact absurd (h ▸ hp) hpa
      · exact ih h (fun e he hpe => hu e (List.mem_cons_of_mem _ he) hpe)

/-! ### Conversation-store lemmas -/

theorem findChat_setChat (cs : List (List Char × Chat)) (id : List Char)
    (c : Chat) : findChat (setChat cs id c) id = some c := by
  unfold setChat
  by_cases h : hasChat cs id = true
  · simp only [h, if_true]
    induction cs with
    | nil => simp [hasChat] at h
    | cons a t ih =>
      by_cases ha : a.1 = id
      · simp [findChat, ha]
      · simp only [hasChat, Bool.or_eq_true, decide_eq_true_eq] at h
        rcases h with h | h
        · exact absurd h ha
        · simp [findChat, ha, ih h]
  · simp only [h, if_false]
    induction cs with
    | nil => simp [findChat]
    | cons a t ih =>
      have ha : ¬a.1 = id := by
        intro hc
        exact h (by simp [hasChat, hc])
      have ht : ¬hasChat t id = true := by
        intro hc
        exact h (by simp [hasChat, hc])
      simpa [findChat, ha] using ih ht

theorem findChat_modifyChat (cs : List (List Char × Chat)) (id : List Char)
    (f : Chat → Chat) :
    findChat (modifyChat cs id f) id = (findChat cs id).map f := by
  unfold modifyChat
  induction cs with
  | nil => simp [findChat]
  | cons a t ih =>
    by_cases ha : a.1 = id
    · simp [findChat, ha]
    · simp [findChat, ha, ih]

theorem activeChat_appendExchange (st : AppState) (q : List Char) :
    activeChat (appendExchange st q) =
      some (match activeChat st with
            | none => Chat.mk "Unnamed Chat".toList [⟨q, []⟩]
            | some c => { c with messages := c.messages ++ [⟨q, []⟩] }) := by
  unfold appendExchange activeChat
  cases hfc : findChat st.chats st.currentChatId with
  | none =>
    simp only [hfc, Option.isNone_none, if_true]
    rw [findChat_modifyChat, findChat_setChat]
    rfl
  | some c =>
    simp only [hfc, Option.isNone_some, Bool.false_eq_true, if_false]
    rw [findChat_modifyChat, hfc]
    rfl

theorem modifyChat_count_le (cs : List (List Char × Chat)) (id : List Char)
    (f : Chat → Chat) (hf : ∀ c, c.messages.length ≤ (f c).messages.length) :
    (cs.map (fun e => e.2.messages.length)).sum ≤
      ((modifyChat cs id f).map (fun e => e.2.messages.length)).sum := by
  unfold modifyChat
  induction cs with
  | nil => simp
  | cons a t ih =>
    by_cases ha : a.1 = id
    · simp only [List.map_cons, ha, if_true, List.sum_cons]
      exact Nat.add_le_add (hf a.2) ih
    · simp only [List.map_cons, ha, if_false, List.sum_cons]
      exact Nat.add_le_add_left ih _

theorem setLastAnswer_len (c : Chat) (a : List Char) :
    (setLastAnswer c a).messages.length = c.messages.length := by
  unfold setLastAnswer
  cases h : c.messages.getLast? with
  | none => rfl
  | some e =>
    have hne : c.messages ≠ [] := by
      intro hc
      rw [hc] at h
      simp at h
    simp only [List.length_append, List.length_dropLast, List.length_cons,
      List.length_nil]
    have := List.length_pos.mpr hne
    omega

theorem hasChat_false_of_findChat_none (cs : List (List Char × Chat))
    (id : List Char) (h : findChat cs id = none) : hasChat cs id = false := by
  induction cs with
  | nil => simp [hasChat]
  | cons a t ih =>
    by_cases ha : a.1 = id
    · simp [findChat, ha] at h
    · simp only [findChat, ha, if_false] at h
      simp [hasChat, ha, ih h]

theorem totalEntries_appendExchange (st : AppState) (q : List Char) :
    totalEntries st ≤ totalEntries (appendExchange st q) := by
  unfold appendExchange totalEntries
  by_cases hfc : (findChat st.chats st.currentChatId).isNone = true
  · simp only [hfc, if_true]
    have h1 : (st.chats.map (fun e => e.2.messages.length)).sum ≤
        ((setChat st.chats st.currentChatId ⟨"Unnamed Chat".toList, []⟩).map
          (fun e => e.2.messages.length)).sum := by
      unfold setChat
      rw [hasChat_false_of_findChat_none _ _ (Option.isNone_iff_eq_none.mp hfc)]
      simp
    refine le_trans h1 ?_
    exact modifyChat_count_le _ _ _ (by intro c; simp)
  · simp only [hfc, if_false]
    exact modifyChat_count_le _ _ _ (by intro c; simp)

/-! ### Claim C10 -/

/-- C10: `escapeHtml` is total at its public interface — on null/undefined
it returns the empty string; on strings it is a character-wise
homomorphism that maps each of `&`, `<`, `>`, `"`, `'` to its HTML entity
and leaves every other character unchanged. -/
theorem claim_C10 :
    escapeHtmlNullable none = [] ∧
    (∀ s, escapeHtmlNullable (some s) = escapeHtml s) ∧
    escapeHtml ['&'] = "&amp;".toList ∧
    escapeHtml ['<'] = "&lt;".toList ∧
    escapeHtml ['>'] = "&gt;".toList ∧
    escapeHtml ['"'] = "&quot;".toList ∧
    escapeHtml [apos] = "&#039;".toList ∧
    (∀ c, c ≠ '&' → c ≠ '<' → c ≠ '>' → c ≠ '"' → c ≠ apos →
      escapeHtml [c] = [c]) ∧
    (∀ s t, escapeHtml (s ++ t) = escapeHtml s ++ escapeHtml t) := by
  refine ⟨rfl, fun s => rfl, by decide, by decide, by decide, by decide,
    by decide, ?_, ?_⟩
  · intro c h1 h2 h3 h4 h5
    simp [escapeHtml, escChar, h1, h2, h3, h4, h5]
  · intro s t
    simp [escapeHtml]

/-- Witness for C10: the characterisation applied at the concrete
character `a`. -/
theorem claim_C10_witness : escapeHtml ['a'] = ['a'] :=
  claim_C10.2.2.2.2.2.2.2.1 'a' (by decide) (by decide) (by decide)
    (by decide) (by decide)

/-! ### Claim C8 -/

/-- C8: creating a chat and appending one exchange with question `q` and
empty answer raises the active chat's message count by exactly one
(from 0 to 1), and a reset brings the count back to 0 while the chat's
identifier and name are unchanged. -/
theorem claim_C8 (st : AppState) (id name q : List Char) (hn : name ≠ []) :
    activeCount (createNewChat st id name) = 0 ∧
    activeCount (appendExchange (createNewChat st id name) q) =
      activeCount (createNewChat st id name) + 1 ∧
    (activeChat (appendExchange (createNewChat st id name) q)).bind
      (fun c => c.messages.getLast?) = some ⟨q, []⟩ ∧
    activeCount ((resetChat (appendExchange (createNewChat st id name) q)
      (appendExchange (createNewChat st id name) q).currentChatId .ok).1) = 0 ∧
    ((resetChat (appendExchange (createNewChat st id name) q)
      (appendExchange (createNewChat st id name) q).currentChatId .ok).1).currentChatId
      = id ∧
    activeName ((resetChat (appendExchange (createNewChat st id name) q)
      (appendExchange (createNewChat st id name) q).currentChatId .ok).1)
      = some name := by
  have h1 : activeChat (createNewChat st id name) = some ⟨name, []⟩ := by
    unfold createNewChat activeChat
    simp only [hn, if_false]
    exact findChat_setChat _ _ _
  have h2 : activeChat (appendExchange (createNewChat st id name) q) =
      some ⟨name, [⟨q, []⟩]⟩ := by
    rw [activeChat_appendExchange, h1]
    rfl
  have hid : (createNewChat st id name).currentChatId = id := by
    unfold createNewChat
    simp [hn]
  have hid2 : (appendExchange (createNewChat st id name) q).currentChatId = id := by
    unfold appendExchange
    simpa using hid
  have h3 : activeChat ((resetChat (appendExchange (createNewChat st id name) q)
      (appendExchange (createNewChat st id name) q).currentChatId .ok).1) =
      some ⟨name, []⟩ := by
    unfold resetChat activeChat
    simp only
    rw [findChat_modifyChat]
    unfold activeChat at h2
    rw [h2]
    rfl
  refine ⟨?_, ?_, ?_, ?_, ?_, ?_⟩
  · simp [activeCount, h1]
  · simp [activeCount, h1, h2]
  · rw [h2]; rfl
  · simp [activeCount, h3]
  · unfold resetChat
    simpa using hid2
  · simp [activeName, h3]

/-! ### Claims C6 and C7 (the `sendMessage` guard and error path) -/

theorem activeChat_applyActive (st : AppState) (f : Chat → Chat) :
    activeChat (applyActive st f) = (activeChat st).map f := by
  unfold applyActive activeChat
  exact findChat_modifyChat _ _ _

theorem getLast?_app {α} (L : List α) (e : α) : (L ++ [e]).getLast? = some e :=
  List.getLast?_concat _

theorem dropLast_app {α} (L : List α) (e : α) : (L ++ [e]).dropLast = L :=
  List.dropLast_concat

theorem setLastAnswer_push (nm : List Char) (L : List Exchange)
    (e : Exchange) (a : List Char) :
    setLastAnswer ⟨nm, L ++ [e]⟩ a = ⟨nm, L ++ [{ e with answer := a }]⟩ := by
  unfold setLastAnswer
  simp only [getLast?_app, dropLast_app]

theorem setLastAnswer_single (nm : List Char) (e : Exchange) (a : List Char) :
    setLastAnswer ⟨nm, [e]⟩ a = ⟨nm, [{ e with answer := a }]⟩ := by
  simpa using setLastAnswer_push nm [] e a

/-- C6 (corrected): a send attempt with an empty trimmed prompt or no
selected model performs no fetch and leaves the application state (chats,
active chat, messages, input) unchanged; however the user-visible alert
appears only when a model is missing while the trimmed prompt is
non-empty — an empty prompt is rejected silently. -/
theorem claim_C6 (st : AppState) (o : FetchOutcome)
    (h : jsTrim st.userInput = [] ∨ st.selectedModel = none) :
    (sendMessage st o).fetchAttempts = 0 ∧
    (sendMessage st o).state = st ∧
    ((sendMessage st o).alerts ≠ [] ↔
      (jsTrim st.userInput ≠ [] ∧ st.selectedModel = none)) := by
  unfold sendMessage
  rcases h with h | h
  · simp [h]
  · by_cases hp : jsTrim st.userInput = []
    · simp [hp]
    · simp [hp, h, alertModelMsg]

/-- Witness for C6 (corrected): no-model send with a non-empty prompt. -/
theorem claim_C6_witness :
    (sendMessage ⟨[], [], none, "hi".toList⟩ (.stream [])).fetchAttempts = 0 ∧
    (sendMessage ⟨[], [], none, "hi".toList⟩ (.stream [])).state =
      (⟨[], [], none, "hi".toList⟩ : AppState) ∧
    ((sendMessage ⟨[], [], none, "hi".toList⟩ (.stream [])).alerts ≠ [] ↔
      (jsTrim (⟨[], [], none, "hi".toList⟩ : AppState).userInput ≠ [] ∧
        (⟨[], [], none, "hi".toList⟩ : AppState).selectedModel = none)) :=
  claim_C6 ⟨[], [], none, "hi".toList⟩ (.stream []) (Or.inr rfl)

/-- Counterexample to C6 as stated: a whitespace-only prompt with a model
selected is rejected with NO user-visible alert (app.js returns before
any alert), refuting the claim that every rejected send shows an alert. -/
theorem claim_C6_cex :
    jsTrim (⟨[("c1".toList, ⟨"Chat 1".toList, []⟩)], "c1".toList,
      some "m1".toList, "   ".toList⟩ : AppState).userInput = [] ∧
    (sendMessage ⟨[("c1".toList, ⟨"Chat 1".toList, []⟩)], "c1".toList,
      some "m1".toList, "   ".toList⟩ (.stream [])).alerts = [] ∧
    (sendMessage ⟨[("c1".toList, ⟨"Chat 1".toList, []⟩)], "c1".toList,
      some "m1".toList, "   ".toList⟩ (.stream [])).fetchAttempts = 0 := by
  refine ⟨by decide, ?_, ?_⟩ <;> simp [sendMessage, jsTrim, wsChar]

/-- C7: when the `/stream_chat` request fails (thrown for a non-2xx
status or a network error), the active exchange's stored answer becomes
the error string `Error: <message>`, the store's entry count does not
decrease (the active chat even gains the pushed exchange), exactly one
fetch is attempted (no retry), and the call returns normally with no
alert. -/
theorem claim_C7 (st : AppState) (m msg : List Char)
    (hp : jsTrim st.userInput ≠ []) (hm : st.selectedModel = some m) :
    lastAnswer (sendMessage st (.fail msg)).state =
      some ("Error: ".toList ++ msg) ∧
    activeCount (sendMessage st (.fail msg)).state = activeCount st + 1 ∧
    totalEntries st ≤ totalEntries (sendMessage st (.fail msg)).state ∧
    (sendMessage st (.fail msg)).fetchAttempts = 1 ∧
    (sendMessage st (.fail msg)).alerts = [] := by
  have hstate : (sendMessage st (.fail msg)).state =
      applyActive { appendExchange st (jsTrim st.userInput) with userInput := [] }
        (fun c => setLastAnswer c ("Error: ".toList ++ msg)) := by
    unfold sendMessage
    simp [hp, hm]
  have hf : (sendMessage st (.fail msg)).fetchAttempts = 1 := by
    unfold sendMessage
    simp [hp, hm]
  have ha : (sendMessage st (.fail msg)).alerts = [] := by
    unfold sendMessage
    simp [hp, hm]
  have hac2 : activeChat ({ appendExchange st (jsTrim st.userInput) with
      userInput := [] }) = activeChat (appendExchange st (jsTrim st.userInput)) :=
    rfl
  have hac3 := activeChat_appendExchange st (jsTrim st.userInput)
  refine ⟨?_, ?_, ?_, hf, ha⟩
  · rw [hstate]
    unfold lastAnswer
    rw [activeChat_applyActive, hac2, hac3]
    cases hc : activeChat st with
    | none =>
      simp [hc, setLastAnswer_single, getLast?_app]
    | some c =>
      simp [hc, setLastAnswer_push, getLast?_app]
  · rw [hstate]
    unfold activeCount
    rw [activeChat_applyActive, hac2, hac3]
    cases hc : activeChat st with
    | none =>
      simp [hc, setLastAnswer_single]
    | some c =>
      simp [hc, setLastAnswer_push]
  · rw [hstate]
    refine le_trans (totalEntries_appendExchange st (jsTrim st.userInput)) ?_
    unfold applyActive totalEntries
    exact modifyChat_count_le _ _ _
      (by intro c; rw [setLastAnswer_len])

/-- Witness for C7: HTTP 500 on a concrete single-chat state. -/
theorem claim_C7_witness :
    lastAnswer (sendMessage ⟨[("c1".toList, ⟨"Chat 1".toList, []⟩)],
      "c1".toList, some "m1".toList, "Hello".toList⟩
        (.fail "Internal Server Error".toList)).state =
      some ("Error: ".toList ++ "Internal Server Error".toList) ∧
    activeCount (sendMessage ⟨[("c1".toList, ⟨"Chat 1".toList, []⟩)],
      "c1".toList, some "m1".toList, "Hello".toList⟩
        (.fail "Internal Server Error".toList)).state =
      activeCount (⟨[("c1".toList, ⟨"Chat 1".toList, []⟩)], "c1".toList,
        some "m1".toList, "Hello".toList⟩ : AppState) + 1 ∧
    totalEntries (⟨[("c1".toList, ⟨"Chat 1".toList, []⟩)], "c1".toList,
      some "m1".toList, "Hello".toList⟩ : AppState) ≤
      totalEntries (sendMessage ⟨[("c1".toList, ⟨"Chat 1".toList, []⟩)],
        "c1".toList, some "m1".toList, "Hello".toList⟩
          (.fail "Internal Server Error".toList)).state ∧
    (sendMessage ⟨[("c1".toList, ⟨"Chat 1".toList, []⟩)], "c1".toList,
      some "m1".toList, "Hello".toList⟩
        (.fail "Internal Server Error".toList)).fetchAttempts = 1 ∧
    (sendMessage ⟨[("c1".toList, ⟨"Chat 1".toList, []⟩)], "c1".toList,
      some "m1".toList, "Hello".toList⟩
        (.fail "Internal Server Error".toList)).alerts = [] :=
  claim_C7 _ "m1".toList "Internal Server Error".toList (by decide) rfl

/-- Witness for C8: the scenario run from the empty store with concrete
id, name and question. -/
theorem claim_C8_witness :
    activeCount (createNewChat ⟨[], [], none, []⟩ "id1".toList "Chat 1".toList) = 0 ∧
    activeCount (appendExchange (createNewChat ⟨[], [], none, []⟩ "id1".toList
      "Chat 1".toList) "q".toList) =
      activeCount (createNewChat ⟨[], [], none, []⟩ "id1".toList "Chat 1".toList) + 1 ∧
    (activeChat (appendExchange (createNewChat ⟨[], [], none, []⟩ "id1".toList
      "Chat 1".toList) "q".toList)).bind (fun c => c.messages.getLast?) =
      some ⟨"q".toList, []⟩ ∧
    activeCount ((resetChat (appendExchange (createNewChat ⟨[], [], none, []⟩
      "id1".toList "Chat 1".toList) "q".toList)
      (appendExchange (createNewChat ⟨[], [], none, []⟩ "id1".toList
        "Chat 1".toList) "q".toList).currentChatId .ok).1) = 0 ∧
    ((resetChat (appendExchange (createNewChat ⟨[], [], none, []⟩ "id1".toList
      "Chat 1".toList) "q".toList)
      (appendExchange (createNewChat ⟨[], [], none, []⟩ "id1".toList
        "Chat 1".toList) "q".toList).currentChatId .ok).1).currentChatId =
      "id1".toList ∧
    activeName ((resetChat (appendExchange (createNewChat ⟨[], [], none, []⟩
      "id1".toList "Chat 1".toList) "q".toList)
      (appendExchange (createNewChat ⟨[], [], none, []⟩ "id1".toList
        "Chat 1".toList) "q".toList).currentChatId .ok).1) =
      some "Chat 1".toList :=
  claim_C8 ⟨[], [], none, []⟩ "id1".toList "Chat 1".toList "q".toList
    (by decide)

/-! ### Claim C4 (sentinel only breaks the current batch) -/

/-- C4 (corrected): once the `[DONE]` payload is extracted, no later line
of the same chunk's batch of complete lines is processed — the loop over
that batch stops.  (Lines arriving in subsequently read chunks are
processed again; see the counterexample.) -/
theorem claim_C4 (ls1 ls2 : List (List Char)) (l : List Char)
    (h1 : hasDoneLine ls1 = false) (h2 : isDoneLine l = true) :
    processLines (ls1 ++ l :: ls2) = processLines ls1 := by
  induction ls1 with
  | nil =>
    unfold isDoneLine at h2
    rw [beq_iff_eq] at h2
    simp only [List.nil_append, processLines, h2]
    rfl
  | cons a t ih =>
    unfold hasDoneLine at h1
    simp only [List.any_cons, Bool.or_eq_false_iff] at h1
    have ha : isDoneLine a = false := h1.1
    unfold isDoneLine at ha
    simp only [List.cons_append, processLines]
    cases hd : lineData a with
    | none => exact ih h1.2
    | some d =>
      have hne : d ≠ doneTok := by
        intro hc
        rw [hd, hc] at ha
        simp at ha
      simp only [hne, if_false, List.append_eq]
      exact congrArg _ (ih h1.2)

/-- Witness for C4 (corrected): a batch with one payload line, then the
sentinel, then another data line — only the first payload is emitted. -/
theorem claim_C4_witness :
    processLines (["data: a".toList] ++ "data: [DONE]".toList :: ["data: b".toList]) =
      processLines ["data: a".toList] :=
  claim_C4 ["data: a".toList] ["data: b".toList] "data: [DONE]".toList
    (by decide) (by decide)

/-- Counterexample to C4 as stated: after a chunk whose batch ends at
`data: [DONE]`, a payload line arriving in a subsequently read chunk IS
processed — the decoder keeps reading and appends `X`. -/
theorem claim_C4_cex :
    (runDecoder ["data: [DONE]\n".toList]).payloads = [] ∧
    (runDecoder ["data: [DONE]\n".toList, "data: X\n".toList]).payloads =
      ["X".toList] := by
  refine ⟨?_, ?_⟩ <;> rfl

/-! ### Claim C5 (end-to-end streaming scenario) -/

/-- C5 (corrected): for the scenario `data: Hi`, `data:  there`,
`data: [DONE]` the stored answer is `"Hi\nthere\n"` — each extracted
payload is trimmed and appended together with a newline — whose
whitespace-collapsed display text is `"Hi there"`; the streaming
indicator is removed when the stream ends. -/
theorem claim_C5 :
    lastAnswer (sendMessage ⟨[("c1".toList, ⟨"Chat 1".toList, []⟩)],
      "c1".toList, some "m1".toList, "Hello".toList⟩
      (.stream ["data: Hi\n\n".toList, "data:  there\n\n".toList,
        "data: [DONE]\n\n".toList])).state = some "Hi\nthere\n".toList ∧
    collapseWs "Hi\nthere\n".toList = "Hi there".toList ∧
    (sendMessage ⟨[("c1".toList, ⟨"Chat 1".toList, []⟩)],
      "c1".toList, some "m1".toList, "Hello".toList⟩
      (.stream ["data: Hi\n\n".toList, "data:  there\n\n".toList,
        "data: [DONE]\n\n".toList])).rawText = "Hi\nthere\n".toList ∧
    (sendMessage ⟨[("c1".toList, ⟨"Chat 1".toList, []⟩)],
      "c1".toList, some "m1".toList, "Hello".toList⟩
      (.stream ["data: Hi\n\n".toList, "data:  there\n\n".toList,
        "data: [DONE]\n\n".toList])).indicator = false := by
  refine ⟨?_, ?_, ?_, ?_⟩ <;> rfl

/-! ### Claim C1 (stream decoder chunk-boundary invariance) -/

theorem lineSplit_fall (c : Char) (rest : List Char) (h2 : ¬c = '\n')
    (h1 : ∀ r2, c = '\r' → rest = '\n' :: r2 → False) :
    lineSplit (c :: rest) = match lineSplit rest with
      | ([], b) => ([], c :: b)
      | (l :: ls, b) => ((c :: l) :: ls, b) := by
  rw [lineSplit.eq_def]
  split
  · rename_i heq
    exact absurd heq (List.cons_ne_nil c rest)
  · rename_i rest2 heq
    exfalso
    injection heq with hc hr
    exact h1 rest2 hc hr
  · rename_i heq
    injection heq with hc hr
    exact absurd hc h2
  · rename_i c2 rest2 heq
    injection heq with hc hr
    subst hc
    subst hr
    rfl

theorem lineSplit_no_lines (r : List Char) : ∀ b, lineSplit r = ([], b) → b = r := by
  induction r using lineSplit.induct with
  | case1 =>
    intro b h
    rw [lineSplit.eq_def] at h
    simp only [Prod.mk.injEq] at h
    exact h.2.symm
  | case2 rest ih =>
    intro b h
    simp [lineSplit] at h
  | case3 rest ih =>
    intro b h
    simp [lineSplit] at h
  | case4 c rest h1 h2 b0 hb ih =>
    intro b h
    rw [lineSplit_fall c rest h2 h1, hb] at h
    simp only [Prod.mk.injEq] at h
    rw [← h.2, ih b0 hb]
  | case5 c rest h1 h2 l ls b0 hb ih =>
    intro b h
    rw [lineSplit_fall c rest h2 h1, hb] at h
    simp at h

theorem lineSplit_append (x y : List Char) :
    lineSplit (x ++ y) =
      ((lineSplit x).1 ++ (lineSplit ((lineSplit x).2 ++ y)).1,
       (lineSplit ((lineSplit x).2 ++ y)).2) := by
  induction x using lineSplit.induct with
  | case1 => simp [lineSplit]
  | case2 rest ih =>
    have hx : ('\r' :: '\n' :: rest) ++ y = '\r' :: '\n' :: (rest ++ y) := rfl
    rw [hx]
    show ([] :: (lineSplit (rest ++ y)).1, (lineSplit (rest ++ y)).2) = _
    rw [ih]
    show _ = (([] :: (lineSplit rest).1) ++ _, _)
    simp [lineSplit]
  | case3 rest ih =>
    have hx : ('\n' :: rest) ++ y = '\n' :: (rest ++ y) := rfl
    rw [hx]
    show ([] :: (lineSplit (rest ++ y)).1, (lineSplit (rest ++ y)).2) = _
    rw [ih]
    show _ = (([] :: (lineSplit rest).1) ++ _, _)
    simp [lineSplit]
  | case4 c rest h1 h2 b0 hb ih =>
    have hb0 : b0 = rest := lineSplit_no_lines rest b0 hb
    have hx : lineSplit (c :: rest) = ([], c :: rest) := by
      rw [lineSplit_fall c rest h2 h1, hb, hb0]
    rw [hx]
    simp
  | case5 c rest h1 h2 l ls b0 hb ih =>
    have hrne : rest ≠ [] := by
      intro hc
      rw [hc] at hb
      rw [lineSplit.eq_def] at hb
      simp at hb
    have h1b : ∀ r2, c = '\r' → rest ++ y = '\n' :: r2 → False := by
      intro r2 hcr hry
      cases rest with
      | nil => exact hrne rfl
      | cons r0 rrest =>
        rw [List.cons_append] at hry
        injection hry with hr0 _
        exact h1 rrest hcr (by rw [hr0])
    have hx : lineSplit (c :: rest) = ((c :: l) :: ls, b0) := by
      rw [lineSplit_fall c rest h2 h1, hb]
    have hcons : (c :: rest) ++ y = c :: (rest ++ y) := rfl
    rw [hcons, lineSplit_fall c (rest ++ y) h2 h1b, ih, hb, hx]
    simp

theorem lineSplit_snd_no_nl (z : List Char) : '\n' ∉ (lineSplit z).2 := by
  induction z using lineSplit.induct with
  | case1 => simp [lineSplit]
  | case2 rest ih => simpa [lineSplit] using ih
  | case3 rest ih => simpa [lineSplit] using ih
  | case4 c rest h1 h2 b hb ih =>
    rw [lineSplit_fall c rest h2 h1, hb]
    rw [hb] at ih
    simp only [List.mem_cons, not_or]
    exact ⟨fun hc => h2 hc.symm, ih⟩
  | case5 c rest h1 h2 l ls b hb ih =>
    rw [lineSplit_fall c rest h2 h1, hb]
    rw [hb] at ih
    exact ih

theorem lineSplit_nosep (w : List Char) (h : ∀ c ∈ w, c ≠ '\n') :
    lineSplit w = ([], w) := by
  induction w with
  | nil => rfl
  | cons c rest ih =>
    have hc : ¬c = '\n' := h c (List.mem_cons_self c rest)
    have h1 : ∀ r2, c = '\r' → rest = '\n' :: r2 → False := by
      intro r2 _ hr
      exact h '\n' (by rw [hr]; simp) rfl
    rw [lineSplit_fall c rest hc h1,
      ih (fun c2 hm => h c2 (List.mem_cons_of_mem _ hm))]

theorem lineSplit_line (a t : List Char)
    (h : ∀ c ∈ a, c ≠ '\n' ∧ c ≠ '\r') :
    lineSplit (a ++ '\n' :: t) = (a :: (lineSplit t).1, (lineSplit t).2) := by
  induction a with
  | nil => rfl
  | cons c a2 ih =>
    have hc := h c (List.mem_cons_self c a2)
    have h1 : ∀ r2, c = '\r' → a2 ++ '\n' :: t = '\n' :: r2 → False := by
      intro r2 hcr _
      exact hc.2 hcr
    have hcons : (c :: a2) ++ '\n' :: t = c :: (a2 ++ '\n' :: t) := rfl
    rw [hcons, lineSplit_fall c _ hc.1 h1,
      ih (fun c2 hm => h c2 (List.mem_cons_of_mem _ hm))]

theorem isDoneLine_blank {l : List Char} (h : jsTrim l = []) :
    isDoneLine l = false := by
  unfold isDoneLine lineData
  simp [h]

theorem processLines_blank (ls : List (List Char)) (h : allBlank ls = true) :
    processLines ls = [] := by
  induction ls with
  | nil => rfl
  | cons l t ih =>
    unfold allBlank at h
    simp only [List.all_cons, Bool.and_eq_true, beq_iff_eq] at h
    unfold processLines lineData
    simp only [h.1, if_true]
    exact ih h.2

theorem processLines_cons_none {l : List Char} (h : lineData l = none)
    (ls : List (List Char)) : processLines (l :: ls) = processLines ls := by
  show (match lineData l with
    | none => processLines ls
    | some d => if d = doneTok then [] else d :: processLines ls) = processLines ls
  rw [h]

theorem processLines_cons_done {l : List Char} (h : lineData l = some doneTok)
    (ls : List (List Char)) : processLines (l :: ls) = [] := by
  show (match lineData l with
    | none => processLines ls
    | some d => if d = doneTok then [] else d :: processLines ls) = []
  rw [h]
  simp

theorem processLines_cons_some {l d : List Char} (h : lineData l = some d)
    (hd : d ≠ doneTok) (ls : List (List Char)) :
    processLines (l :: ls) = d :: processLines ls := by
  show (match lineData l with
    | none => processLines ls
    | some d => if d = doneTok then [] else d :: processLines ls) =
    d :: processLines ls
  rw [h]
  simp [hd]

theorem hasDoneLine_cons (l : List Char) (t : List (List Char)) :
    hasDoneLine (l :: t) = (isDoneLine l || hasDoneLine t) := by
  unfold hasDoneLine
  rw [List.any_cons]

theorem processLines_append (ls1 ls2 : List (List Char)) :
    processLines (ls1 ++ ls2) =
      processLines ls1 ++ if hasDoneLine ls1 = true then [] else processLines ls2 := by
  induction ls1 with
  | nil => simp [hasDoneLine, processLines]
  | cons l t ih =>
    rw [List.cons_append]
    cases hd : lineData l with
    | none =>
      have hdl : isDoneLine l = false := by
        unfold isDoneLine
        rw [hd]
        rfl
      rw [processLines_cons_none hd, processLines_cons_none hd, ih,
        hasDoneLine_cons, hdl, Bool.false_or]
    | some d =>
      by_cases hdd : d = doneTok
      · subst hdd
        have hdl : isDoneLine l = true := by
          unfold isDoneLine
          rw [hd]
          simp
        rw [processLines_cons_done hd, processLines_cons_done hd,
          hasDoneLine_cons, hdl, Bool.true_or]
        simp
      · have hdl : isDoneLine l = false := by
          unfold isDoneLine
          rw [hd]
          simpa using hdd
        rw [processLines_cons_some hd hdd, processLines_cons_some hd hdd, ih,
          hasDoneLine_cons, hdl, Bool.false_or, List.cons_append]

theorem allBlank_suffix (ls1 ls2 : List (List Char))
    (h : allBlank (ls1 ++ ls2) = true) : allBlank ls2 = true := by
  unfold allBlank at h ⊢
  simp only [List.all_append, Bool.and_eq_true] at h
  exact h.2

theorem allBlank_bad (ls : List (List Char)) (h : allBlank ls = true) :
    blankAfterDone ls = true := by
  induction ls with
  | nil => rfl
  | cons l t ih =>
    have hl : jsTrim l = [] := by
      unfold allBlank at h
      simp only [List.all_cons, Bool.and_eq_true, beq_iff_eq] at h
      exact h.1
    unfold blankAfterDone
    rw [isDoneLine_blank hl]
    simp only [Bool.false_eq_true, if_false]
    exact ih (allBlank_suffix [l] t h)

theorem bad_suffix (ls1 ls2 : List (List Char))
    (h : blankAfterDone (ls1 ++ ls2) = true) : blankAfterDone ls2 = true := by
  induction ls1 with
  | nil => exact h
  | cons l t ih =>
    simp only [List.cons_append, blankAfterDone] at h
    by_cases hd : isDoneLine l = true
    · rw [hd] at h
      simp only [if_true] at h
      exact allBlank_bad _ (allBlank_suffix t ls2 h)
    · rw [Bool.not_eq_true] at hd
      rw [hd] at h
      simp only [Bool.false_eq_true, if_false] at h
      exact ih h

theorem bad_done_blank (ls1 ls2 : List (List Char))
    (h : blankAfterDone (ls1 ++ ls2) = true) (hd : hasDoneLine ls1 = true) :
    allBlank ls2 = true := by
  induction ls1 with
  | nil => simp [hasDoneLine] at hd
  | cons l t ih =>
    simp only [List.cons_append, blankAfterDone] at h
    by_cases hl : isDoneLine l = true
    · rw [hl] at h
      simp only [if_true] at h
      exact allBlank_suffix t ls2 h
    · rw [Bool.not_eq_true] at hl
      rw [hl] at h
      simp only [Bool.false_eq_true, if_false] at h
      unfold hasDoneLine at hd
      simp only [List.any_cons, hl, Bool.false_or] at hd
      exact ih h hd

theorem foldl_payloads (cs : List (List Char)) : ∀ b p,
    (cs.foldl feedChunk ⟨b, p⟩).payloads = p ++ decBatches b cs := by
  induction cs with
  | nil =>
    intro b p
    simp [decBatches]
  | cons c cs2 ih =>
    intro b p
    rw [List.foldl_cons]
    have hf : feedChunk ⟨b, p⟩ c =
        ⟨(lineSplit (b ++ c)).2, p ++ processLines (lineSplit (b ++ c)).1⟩ := rfl
    rw [hf, ih,
      show decBatches b (c :: cs2) = processLines (lineSplit (b ++ c)).1 ++
        decBatches (lineSplit (b ++ c)).2 cs2 from rfl,
      List.append_assoc]

theorem decBatches_blank (cs : List (List Char)) : ∀ b, '\n' ∉ b →
    allBlank (lineSplit (b ++ cs.flatten)).1 = true → decBatches b cs = [] := by
  induction cs with
  | nil =>
    intro b _ _
    rfl
  | cons c cs2 ih =>
    intro b hb hall
    have hsp : lineSplit (b ++ (c :: cs2).flatten) =
        ((lineSplit (b ++ c)).1 ++ (lineSplit ((lineSplit (b ++ c)).2 ++ cs2.flatten)).1,
         (lineSplit ((lineSplit (b ++ c)).2 ++ cs2.flatten)).2) := by
      rw [List.flatten_cons, ← List.append_assoc]
      exact lineSplit_append (b ++ c) cs2.flatten
    rw [hsp] at hall
    unfold decBatches
    rw [processLines_blank _ (by
      unfold allBlank at hall ⊢
      simp only [List.all_append, Bool.and_eq_true] at hall
      exact hall.1)]
    rw [ih _ (lineSplit_snd_no_nl _) (allBlank_suffix _ _ hall)]
    rfl

theorem decBatches_eq (cs : List (List Char)) : ∀ b, '\n' ∉ b →
    blankAfterDone (lineSplit (b ++ cs.flatten)).1 = true →
    decBatches b cs = processLines (lineSplit (b ++ cs.flatten)).1 := by
  induction cs with
  | nil =>
    intro b hb _
    rw [List.flatten_nil, List.append_nil,
      lineSplit_nosep b (fun c hc hcn => hb (hcn ▸ hc))]
    rfl
  | cons c cs2 ih =>
    intro b hb hbad
    have hsp : lineSplit (b ++ (c :: cs2).flatten) =
        ((lineSplit (b ++ c)).1 ++ (lineSplit ((lineSplit (b ++ c)).2 ++ cs2.flatten)).1,
         (lineSplit ((lineSplit (b ++ c)).2 ++ cs2.flatten)).2) := by
      rw [List.flatten_cons, ← List.append_assoc]
      exact lineSplit_append (b ++ c) cs2.flatten
    rw [hsp] at hbad ⊢
    show processLines (lineSplit (b ++ c)).1 ++
        decBatches (lineSplit (b ++ c)).2 cs2 = _
    rw [processLines_append]
    by_cases hd : hasDoneLine (lineSplit (b ++ c)).1 = true
    · rw [if_pos hd]
      rw [decBatches_blank cs2 _ (lineSplit_snd_no_nl _)
        (bad_done_blank _ _ hbad hd)]
    · rw [if_neg hd]
      rw [ih _ (lineSplit_snd_no_nl _) (bad_suffix _ _ hbad)]

theorem jsTrim_cons_ne {c : Char} {t : List Char} (h : wsChar c = false) :
    jsTrim (c :: t) ≠ [] := by
  unfold jsTrim
  rw [List.dropWhile_cons_of_neg (by rw [h]; simp)]
  intro hc
  rw [List.reverse_eq_nil_iff, List.dropWhile_eq_nil_iff] at hc
  have := hc c (by simp)
  rw [h] at this
  simp at this

theorem lineData_data (p : List Char) :
    lineData (dataPref ++ p) = some (jsTrim p) := by
  unfold lineData
  have h1 : jsTrim ('d' :: ("ata: ".toList ++ p)) ≠ [] :=
    jsTrim_cons_ne (by decide)
  rw [if_neg (show jsTrim (dataPref ++ p) ≠ [] from h1),
    if_pos (sw_append_self dataPref p)]
  rw [show (6 : Nat) = dataPref.length from rfl, List.drop_left]

theorem lineData_nil : lineData [] = none := rfl

theorem isDoneLine_data (p : List Char) :
    isDoneLine (dataPref ++ p) = (jsTrim p == doneTok) := by
  unfold isDoneLine
  rw [lineData_data]
  by_cases h : jsTrim p = doneTok
  · simp [h]
  · simp [h]

theorem blankAfterDone_cons (l : List Char) (ls : List (List Char)) :
    blankAfterDone (l :: ls) =
      if isDoneLine l = true then allBlank ls else blankAfterDone ls := rfl

theorem sse_lines (ps : List (List Char))
    (h : ∀ p ∈ ps, '\n' ∉ p ∧ '\r' ∉ p) :
    lineSplit (sseText ps) = (sseLineList ps, []) := by
  induction ps with
  | nil => rfl
  | cons p ps2 ih =>
    have hT : sseText (p :: ps2) = (dataPref ++ p) ++ '\n' :: ('\n' :: sseText ps2) := by
      unfold sseText sseFrame
      simp [List.flatten_cons, List.append_assoc]
    rw [hT, lineSplit_line _ _ ?hchars]
    case hchars =>
      intro c hc
      rcases List.mem_append.mp hc with hc | hc
      · exact (by decide : ∀ c ∈ dataPref, c ≠ '\n' ∧ c ≠ '\r') c hc
      · have hp := h p (List.mem_cons_self _ _)
        exact ⟨fun he => hp.1 (he ▸ hc), fun he => hp.2 (he ▸ hc)⟩
    have h2 : lineSplit ('\n' :: sseText ps2) =
        ([] :: (lineSplit (sseText ps2)).1, (lineSplit (sseText ps2)).2) := rfl
    rw [h2, ih (fun q hq => h q (List.mem_cons_of_mem _ hq))]
    show _ = (sseLineList (p :: ps2), [])
    unfold sseLineList
    simp [List.flatMap_cons]

theorem processLines_sse (ps : List (List Char))
    (h : ∀ p ∈ ps, jsTrim p ≠ doneTok) :
    processLines (sseLineList ps) = ps.map jsTrim := by
  induction ps with
  | nil =>
    unfold sseLineList
    simp only [List.flatMap_nil, List.nil_append]
    rw [processLines_cons_done (by
      rw [lineData_data, show jsTrim doneTok = doneTok from by decide])]
    rfl
  | cons p ps2 ih =>
    unfold sseLineList
    simp only [List.flatMap_cons, List.cons_append, List.nil_append]
    rw [processLines_cons_some (lineData_data p) (h p (List.mem_cons_self _ _)),
      processLines_cons_none lineData_nil,
      show ps2.flatMap (fun q => [dataPref ++ q, []]) ++ [dataPref ++ doneTok, []] =
        sseLineList ps2 from rfl,
      ih (fun q hq => h q (List.mem_cons_of_mem _ hq))]
    rfl

theorem bad_sse (ps : List (List Char))
    (h : ∀ p ∈ ps, jsTrim p ≠ doneTok) :
    blankAfterDone (sseLineList ps) = true := by
  induction ps with
  | nil => rfl
  | cons p ps2 ih =>
    unfold sseLineList
    simp only [List.flatMap_cons, List.cons_append, List.nil_append]
    rw [blankAfterDone_cons, isDoneLine_data]
    have hp : (jsTrim p == doneTok) = false := by
      simpa using h p (List.mem_cons_self _ _)
    rw [hp]
    simp only [Bool.false_eq_true, if_false]
    rw [blankAfterDone_cons, show isDoneLine [] = false from rfl]
    simp only [Bool.false_eq_true, if_false]
    rw [show ps2.flatMap (fun q => [dataPref ++ q, []]) ++ [dataPref ++ doneTok, []] =
        sseLineList ps2 from rfl]
    exact ih (fun q hq => h q (List.mem_cons_of_mem _ hq))

/-- C1: for any payload sequence whose frames (each a well-formed
`data: ` line followed by a blank line) are followed by the
`data: [DONE]` frame, the decoder loop yields exactly the trimmed
payloads, in order, for EVERY way the stream text is cut into chunks. -/
theorem claim_C1 (ps chunks : List (List Char))
    (hchunks : chunks.flatten = sseText ps)
    (hwf : ∀ p ∈ ps, wfPayload p) :
    (runDecoder chunks).payloads = ps.map jsTrim := by
  unfold runDecoder
  rw [foldl_payloads chunks [] [], List.nil_append]
  have hlines : lineSplit (([] : List Char) ++ chunks.flatten) = (sseLineList ps, []) := by
    rw [List.nil_append, hchunks]
    exact sse_lines ps (fun p hp => ⟨(hwf p hp).1, (hwf p hp).2.1⟩)
  rw [decBatches_eq chunks [] (by simp) (by
    rw [hlines]
    exact bad_sse ps (fun p hp => (hwf p hp).2.2))]
  rw [hlines]
  exact processLines_sse ps (fun p hp => (hwf p hp).2.2)

/-- Witness for C1: two payloads split across chunk boundaries that cut
mid-line and mid-frame. -/
theorem claim_C1_witness :
    (["data: H".toList, "i\n\ndata:  there\n\ndata: [DO".toList,
       "NE]\n\n".toList].flatten = sseText ["Hi".toList, " there".toList] ∧
     (∀ p ∈ ["Hi".toList, " there".toList], wfPayload p)) ∧
    (runDecoder ["data: H".toList, "i\n\ndata:  there\n\ndata: [DO".toList,
       "NE]\n\n".toList]).payloads =
      ["Hi".toList, " there".toList].map jsTrim :=
  ⟨⟨by decide, by decide⟩,
   claim_C1 ["Hi".toList, " there".toList]
     ["data: H".toList, "i\n\ndata:  there\n\ndata: [DO".toList,
      "NE]\n\n".toList] (by decide) (by decide)⟩

/-- Counterexample to C5 as stated: the stored answer of the scenario is
`"Hi\nthere\n"`, not the claimed exact text `"Hi there"`. -/
theorem claim_C5_cex :
    lastAnswer (sendMessage ⟨[("c1".toList, ⟨"Chat 1".toList, []⟩)],
      "c1".toList, some "m1".toList, "Hello".toList⟩
      (.stream ["data: Hi\n\n".toList, "data:  there\n\n".toList,
        "data: [DONE]\n\n".toList])).state = some "Hi\nthere\n".toList ∧
    some "Hi\nthere\n".toList ≠ some "Hi there".toList := by
  refine ⟨?_, by decide⟩
  rfl

/-! ### Markdown scanner unfolding and copy lemmas -/

theorem boldGo_nil : boldGo [] = [] := by simp [boldGo]

theorem boldGo_one (c : Char) : boldGo [c] = [c] := by simp [boldGo]

theorem boldGo_cons2 (c d : Char) (rest : List Char) (h : ¬(c = '*' ∧ d = '*')) :
    boldGo (c :: d :: rest) = c :: boldGo (d :: rest) := by
  simp only [boldGo]
  rw [if_neg (by simpa using h)]

theorem boldGo_open (rest : List Char) (i : Nat) (hf : findBB rest = some i) :
    boldGo ('*' :: '*' :: rest) =
      "<strong>".toList ++ rest.take i ++ "</strong>".toList ++
        boldGo (rest.drop (i + 2)) := by
  simp only [boldGo]
  rw [if_pos (by simp), hf]

theorem boldGo_fail (rest : List Char) (hf : findBB rest = none) :
    boldGo ('*' :: '*' :: rest) = '*' :: boldGo ('*' :: rest) := by
  simp only [boldGo]
  rw [if_pos (by simp), hf]

theorem italicGo_nil : italicGo [] = [] := by simp [italicGo]

theorem italicGo_cons (c : Char) (rest : List Char) (h : ¬c = '*') :
    italicGo (c :: rest) = c :: italicGo rest := by
  simp only [italicGo]
  rw [if_neg h]

theorem italicGo_open (rest : List Char) (i : Nat) (hf : findIT rest = some i) :
    italicGo ('*' :: rest) =
      "<em>".toList ++ rest.take i ++ "</em>".toList ++
        italicGo (rest.drop (i + 1)) := by
  simp only [italicGo, if_true]
  rw [hf]

theorem italicGo_fail (rest : List Char) (hf : findIT rest = none) :
    italicGo ('*' :: rest) = '*' :: italicGo rest := by
  simp only [italicGo, if_true]
  rw [hf]

theorem inlineGo_nil : inlineGo [] = [] := by simp [inlineGo]

theorem inlineGo_cons (c : Char) (rest : List Char) (h : ¬c = btick) :
    inlineGo (c :: rest) = c :: inlineGo rest := by
  simp only [inlineGo]
  rw [if_neg h]

theorem inlineGo_open (rest : List Char) (i : Nat) (hf : findIC rest = some i) :
    inlineGo (btick :: rest) =
      "<code>".toList ++ rest.take i ++ "</code>".toList ++
        inlineGo (rest.drop (i + 1)) := by
  simp only [inlineGo, if_true]
  rw [hf]

theorem inlineGo_fail (rest : List Char) (hf : findIC rest = none) :
    inlineGo (btick :: rest) = btick :: inlineGo rest := by
  simp only [inlineGo, if_true]
  rw [hf]

theorem fenceGo_nil : fenceGo [] = [] := by simp [fenceGo]

theorem fenceGo_one (c : Char) : fenceGo [c] = [c] := by simp [fenceGo]

theorem fenceGo_two (c d : Char) : fenceGo [c, d] = [c, d] := by simp [fenceGo]

theorem fenceGo_cons3 (c d e : Char) (rest : List Char)
    (h : ¬(c = btick ∧ d = btick ∧ e = btick)) :
    fenceGo (c :: d :: e :: rest) = c :: fenceGo (d :: e :: rest) := by
  simp only [fenceGo]
  rw [if_neg (by simpa [and_assoc] using h)]

theorem boldGo_copy (w z : List Char) (h : '*' ∉ w) :
    boldGo (w ++ z) = w ++ boldGo z := by
  induction w with
  | nil => simp
  | cons a w2 ih =>
    have ha : ¬a = '*' := fun hc => h (by rw [hc]; exact List.mem_cons_self _ _)
    rw [List.cons_append]
    cases hw : w2 ++ z with
    | nil =>
      rcases List.append_eq_nil.mp hw with ⟨hw2, hz⟩
      subst hw2
      subst hz
      rw [boldGo_one, boldGo_nil]
      simp
    | cons d rest2 =>
      rw [boldGo_cons2 a d rest2 (fun hc => ha hc.1), ← hw,
        ih (fun hc => h (List.mem_cons_of_mem _ hc))]
      rfl

theorem italicGo_copy (w z : List Char) (h : '*' ∉ w) :
    italicGo (w ++ z) = w ++ italicGo z := by
  induction w with
  | nil => simp
  | cons a w2 ih =>
    have ha : ¬a = '*' := fun hc => h (by rw [hc]; exact List.mem_cons_self _ _)
    rw [List.cons_append, italicGo_cons a _ ha,
      ih (fun hc => h (List.mem_cons_of_mem _ hc))]
    rfl

theorem inlineGo_copy (w z : List Char) (h : btick ∉ w) :
    inlineGo (w ++ z) = w ++ inlineGo z := by
  induction w with
  | nil => simp
  | cons a w2 ih =>
    have ha : ¬a = btick := fun hc => h (by rw [hc]; exact List.mem_cons_self _ _)
    rw [List.cons_append, inlineGo_cons a _ ha,
      ih (fun hc => h (List.mem_cons_of_mem _ hc))]
    rfl

theorem fenceGo_cons_ne (a : Char) (X : List Char) (ha : ¬a = btick) :
    fenceGo (a :: X) = a :: fenceGo X := by
  cases X with
  | nil => rw [fenceGo_one, fenceGo_nil]
  | cons d X2 =>
    cases X2 with
    | nil => rw [fenceGo_two, fenceGo_one]
    | cons e X3 => exact fenceGo_cons3 a d e X3 (fun hc => ha hc.1)

theorem fenceGo_copy (w z : List Char) (h : btick ∉ w) :
    fenceGo (w ++ z) = w ++ fenceGo z := by
  induction w with
  | nil => simp
  | cons a w2 ih =>
    have ha : ¬a = btick := fun hc => h (by rw [hc]; exact List.mem_cons_self _ _)
    rw [List.cons_append, fenceGo_cons_ne a _ ha,
      ih (fun hc => h (List.mem_cons_of_mem _ hc))]
    rfl

theorem boldGo_id (l : List Char) (h : '*' ∉ l) : boldGo l = l := by
  have := boldGo_copy l [] h
  simpa [boldGo_nil] using this

theorem italicGo_id (l : List Char) (h : '*' ∉ l) : italicGo l = l := by
  have := italicGo_copy l [] h
  simpa [italicGo_nil] using this

theorem inlineGo_id (l : List Char) (h : btick ∉ l) : inlineGo l = l := by
  have := inlineGo_copy l [] h
  simpa [inlineGo_nil] using this

theorem fenceGo_id (l : List Char) (h : btick ∉ l) : fenceGo l = l := by
  have := fenceGo_copy l [] h
  simpa [fenceGo_nil] using this


/-! ### Line-segment and `escapeHtml` structure lemmas -/

theorem breakLine_join (l : List Char) : (breakLine l).1 ++ (breakLine l).2 = l := by
  induction l with
  | nil => rfl
  | cons c rest ih =>
    by_cases hc : (c = '\n' || c = '\r') = true
    · simp [breakLine, hc]
    · simp [breakLine, hc, ih]

theorem breakLine_snd_shape (l : List Char) :
    (breakLine l).2 = [] ∨
      ∃ c rest, (breakLine l).2 = c :: rest ∧ (c = '\n' ∨ c = '\r') := by
  induction l with
  | nil => left; rfl
  | cons c rest ih =>
    by_cases hc : (c = '\n' || c = '\r') = true
    · right
      exact ⟨c, rest, by simp [breakLine, hc], by simpa using hc⟩
    · simpa [breakLine, hc] using ih

theorem breakLine_nosep (l : List Char)
    (h : ∀ c ∈ l, ¬(c = '\n' ∨ c = '\r')) : breakLine l = (l, []) := by
  induction l with
  | nil => rfl
  | cons c rest ih =>
    have hc : (c = '\n' || c = '\r') = false := by
      simpa using h c (List.mem_cons_self _ _)
    simp [breakLine, hc, ih (fun x hx => h x (List.mem_cons_of_mem _ hx))]

theorem breakLine_nosep_append (w z : List Char)
    (h : ∀ c ∈ w, ¬(c = '\n' ∨ c = '\r')) :
    breakLine (w ++ z) = (w ++ (breakLine z).1, (breakLine z).2) := by
  induction w with
  | nil => simp
  | cons c w2 ih =>
    have hc : (c = '\n' || c = '\r') = false := by
      simpa using h c (List.mem_cons_self _ _)
    simp [breakLine, hc, ih (fun x hx => h x (List.mem_cons_of_mem _ hx))]

theorem mapLines_eq (f : List Char → List Char) (l : List Char) :
    mapLines f l =
      if h : (breakLine l).2 = [] then f (breakLine l).1
      else f (breakLine l).1 ++
        (breakLine l).2.head h :: mapLines f ((breakLine l).2.tail) := by
  rw [mapLines]

theorem lineSegs_eq (l : List Char) :
    lineSegs l =
      if (breakLine l).2 = [] then [(breakLine l).1]
      else (breakLine l).1 :: lineSegs ((breakLine l).2.tail) := by
  rw [lineSegs]
  congr

theorem lineSegs_subset (l : List Char) :
    ∀ seg ∈ lineSegs l, ∀ c ∈ seg, c ∈ l := by
  induction l using lineSegs.induct with
  | case1 x h0 =>
    intro seg hseg c hc
    rw [lineSegs_eq, if_pos h0] at hseg
    simp only [List.mem_singleton] at hseg
    subst hseg
    rw [← breakLine_join x]
    exact List.mem_append_left _ hc
  | case2 x h0 ih =>
    intro seg hseg c hc
    rw [lineSegs_eq, if_neg h0] at hseg
    rcases List.mem_cons.mp hseg with hseg | hseg
    · subst hseg
      rw [← breakLine_join x]
      exact List.mem_append_left _ hc
    · have hcx : c ∈ (breakLine x).2.tail := ih seg hseg c hc
      rw [← breakLine_join x]
      refine List.mem_append_right _ ?_
      exact List.mem_of_mem_tail hcx

theorem mapLines_id (f : List Char → List Char) (l : List Char)
    (h : ∀ seg ∈ lineSegs l, f seg = seg) : mapLines f l = l := by
  induction l using lineSegs.induct with
  | case1 x h0 =>
    rw [mapLines_eq, dif_pos h0]
    rw [h (breakLine x).1 (by rw [lineSegs_eq, if_pos h0]; simp)]
    conv_rhs => rw [← breakLine_join x]
    rw [h0, List.append_nil]
  | case2 x h0 ih =>
    rw [mapLines_eq, dif_neg h0]
    rw [h (breakLine x).1 (by rw [lineSegs_eq, if_neg h0]; simp)]
    rw [ih (fun seg hseg => h seg (by rw [lineSegs_eq, if_neg h0]; simp [hseg]))]
    conv_rhs => rw [← breakLine_join x]
    congr
    exact (List.head_cons_tail _ h0)

theorem lineSegs_single (l : List Char)
    (h : ∀ c ∈ l, ¬(c = '\n' ∨ c = '\r')) : lineSegs l = [l] := by
  rw [lineSegs_eq, breakLine_nosep l h]
  simp

theorem mem_escChar (c x : Char) (h : x ∈ escChar c) :
    x = c ∨ x ∈ "&amp;ltgquo#039;".toList := by
  unfold escChar at h
  split_ifs at h
  · exact Or.inr ((by decide : ∀ y ∈ "&amp;".toList, y ∈ "&amp;ltgquo#039;".toList) x h)
  · exact Or.inr ((by decide : ∀ y ∈ "&lt;".toList, y ∈ "&amp;ltgquo#039;".toList) x h)
  · exact Or.inr ((by decide : ∀ y ∈ "&gt;".toList, y ∈ "&amp;ltgquo#039;".toList) x h)
  · exact Or.inr ((by decide : ∀ y ∈ "&quot;".toList, y ∈ "&amp;ltgquo#039;".toList) x h)
  · exact Or.inr ((by decide : ∀ y ∈ "&#039;".toList, y ∈ "&amp;ltgquo#039;".toList) x h)
  · simp only [List.mem_singleton] at h
    exact Or.inl h

theorem mem_escapeHtml (l : List Char) (x : Char) (h : x ∈ escapeHtml l) :
    x ∈ l ∨ x ∈ "&amp;ltgquo#039;".toList := by
  induction l with
  | nil => simp [escapeHtml] at h
  | cons c rest ih =>
    unfold escapeHtml at h
    rw [List.flatMap_cons] at h
    rcases List.mem_append.mp h with h | h
    · rcases mem_escChar c x h with h | h
      · exact Or.inl (by rw [h]; exact List.mem_cons_self _ _)
      · exact Or.inr h
    · rcases ih h with h | h
      · exact Or.inl (List.mem_cons_of_mem _ h)
      · exact Or.inr h

theorem escChar_nosep (c : Char) (h : ¬(c = '\n' ∨ c = '\r')) :
    ∀ x ∈ escChar c, ¬(x = '\n' ∨ x = '\r') := by
  intro x hx
  rcases mem_escChar c x hx with rfl | hm
  · exact h
  · intro hc
    rcases hc with rfl | rfl <;> revert hm <;> decide

theorem escapeHtml_cons (c : Char) (rest : List Char) :
    escapeHtml (c :: rest) = escChar c ++ escapeHtml rest := by
  unfold escapeHtml
  rw [List.flatMap_cons]

theorem sep_escChar {c : Char} (h : c = '\n' ∨ c = '\r') : escChar c = [c] := by
  rcases h with rfl | rfl <;> decide

theorem breakLine_escape (l : List Char) :
    breakLine (escapeHtml l) =
      (escapeHtml (breakLine l).1, escapeHtml (breakLine l).2) := by
  induction l with
  | nil => rfl
  | cons c rest ih =>
    by_cases hc : (c = '\n' || c = '\r') = true
    · have hsep : c = '\n' ∨ c = '\r' := by simpa using hc
      have hb : breakLine (c :: escapeHtml rest) = ([], c :: escapeHtml rest) := by
        simp [breakLine, hc]
      rw [escapeHtml_cons, sep_escChar hsep, List.singleton_append, hb]
      simp only [breakLine, hc, if_true, escapeHtml_cons, sep_escChar hsep,
        List.singleton_append, Prod.mk.injEq]
      simp [escapeHtml]
    · have hns : ∀ x ∈ escChar c, ¬(x = '\n' ∨ x = '\r') :=
        escChar_nosep c (by simpa using hc)
      rw [escapeHtml_cons, breakLine_nosep_append _ _ hns, ih]
      simp [breakLine, hc, escapeHtml_cons]

theorem lineSegs_escape (l : List Char) :
    lineSegs (escapeHtml l) = (lineSegs l).map escapeHtml := by
  induction l using lineSegs.induct with
  | case1 x h0 =>
    have hb := breakLine_escape x
    rw [lineSegs_eq, if_pos (by rw [hb, h0]; rfl), hb,
      lineSegs_eq (l := x), if_pos h0]
    rfl
  | case2 x h0 ih =>
    rcases breakLine_snd_shape x with hsh | ⟨c0, t0, hsh, hsep⟩
    · exact absurd hsh h0
    have hb := breakLine_escape x
    have hsnd : (breakLine (escapeHtml x)).2 = c0 :: escapeHtml t0 := by
      rw [hb, hsh, escapeHtml_cons, sep_escChar hsep, List.cons_append]
      rfl
    rw [lineSegs_eq, if_neg (by rw [hsnd]; exact List.cons_ne_nil _ _), hb,
      lineSegs_eq (l := x), if_neg h0]
    show escapeHtml (breakLine x).1 :: lineSegs ((escapeHtml (breakLine x).2).tail) =
      List.map escapeHtml ((breakLine x).1 :: lineSegs (breakLine x).2.tail)
    rw [List.map_cons]
    congr 1
    rw [hsh, escapeHtml_cons, sep_escChar hsep, List.singleton_append, List.tail_cons,
      List.tail_cons]
    rw [hsh, List.tail_cons] at ih
    exact ih


/-! ### Claim C9 (renderer is the identity on plain escaped text) -/

theorem escChar_head (c : Char) : escChar c = [c] ∨ ∃ w, escChar c = '&' :: w := by
  unfold escChar
  split_ifs
  · exact Or.inr ⟨"amp;".toList, by decide⟩
  · exact Or.inr ⟨"lt;".toList, by decide⟩
  · exact Or.inr ⟨"gt;".toList, by decide⟩
  · exact Or.inr ⟨"quot;".toList, by decide⟩
  · exact Or.inr ⟨"#039;".toList, by decide⟩
  · exact Or.inl rfl

theorem esc_sw (cH : Char) (rest seg : List Char) (hne : cH ≠ '&')
    (hmem : cH ∉ seg) :
    startsWith (cH :: rest) (escapeHtml seg) = false := by
  cases seg with
  | nil => rfl
  | cons c0 t =>
    rw [escapeHtml_cons]
    have hc0 : ¬cH = c0 := fun hc => hmem (by rw [hc]; exact List.mem_cons_self _ _)
    rcases escChar_head c0 with he | ⟨w, he⟩
    · rw [he, List.singleton_append]
      simp [startsWith, hc0]
    · rw [he, List.cons_append]
      simp [startsWith, hne]

theorem esc_dash (seg : List Char) (h : startsWith "- ".toList seg = false) :
    startsWith "- ".toList (escapeHtml seg) = false := by
  cases seg with
  | nil => rfl
  | cons c0 t =>
    by_cases hc0 : c0 = '-'
    · subst hc0
      have he : escChar '-' = ['-'] := by decide
      rw [escapeHtml_cons, he, List.singleton_append]
      have h2 : startsWith [' '] t = false := by
        simpa [startsWith] using h
      show (('-' : Char) == '-' && startsWith [' '] (escapeHtml t)) = false
      simp only [beq_self_eq_true, Bool.true_and]
      cases t with
      | nil => rfl
      | cons c1 t2 =>
        have hc1 : ¬(' ' : Char) = c1 := by
          intro hc
          rw [show startsWith [' '] (c1 :: t2) = ((' ' : Char) == c1 && true) from rfl] at h2
          rw [← hc] at h2
          simp at h2
        rw [escapeHtml_cons]
        rcases escChar_head c1 with he1 | ⟨w, he1⟩
        · rw [he1, List.singleton_append]
          simp [startsWith, hc1]
        · rw [he1, List.cons_append]
          simp [startsWith]
    · rw [escapeHtml_cons]
      have hc0b : ¬('-' : Char) = c0 := fun hc => hc0 hc.symm
      rcases escChar_head c0 with he | ⟨w, he⟩
      · rw [he, List.singleton_append]
        simp [startsWith, hc0b]
      · rw [he, List.cons_append]
        simp [startsWith]

/-- C9: when `s` contains none of `#`, `*`, backtick and no line of `s`
begins with `- `, the Markdown renderer is the identity on the escaped
text: `formatMarkdown (escapeHtml s) = escapeHtml s`, with no tags
added. -/
theorem claim_C9 (s : List Char) (h1 : '#' ∉ s) (h2 : '*' ∉ s)
    (h3 : btick ∉ s)
    (h4 : ∀ seg ∈ lineSegs s, startsWith "- ".toList seg = false) :
    formatMarkdown (escapeHtml s) = escapeHtml s := by
  have hstar : '*' ∉ escapeHtml s := by
    intro hm
    rcases mem_escapeHtml s '*' hm with hm | hm
    · exact h2 hm
    · revert hm
      decide
  have hbt : btick ∉ escapeHtml s := by
    intro hm
    rcases mem_escapeHtml s btick hm with hm | hm
    · exact h3 hm
    · revert hm
      decide
  have hseg : ∀ seg2 ∈ lineSegs (escapeHtml s),
      ∃ seg0 ∈ lineSegs s, seg2 = escapeHtml seg0 := by
    intro seg2 hs2
    rw [lineSegs_escape] at hs2
    obtain ⟨seg0, hs0, hh⟩ := List.mem_map.mp hs2
    exact ⟨seg0, hs0, hh.symm⟩
  have hhash : ∀ seg0 ∈ lineSegs s, '#' ∉ seg0 := by
    intro seg0 hs0 hc
    exact h1 (lineSegs_subset s seg0 hs0 '#' hc)
  have e3 : mapLines h3Seg (escapeHtml s) = escapeHtml s := by
    apply mapLines_id
    intro seg hsg
    obtain ⟨seg0, hs0, rfl⟩ := hseg seg hsg
    unfold h3Seg
    rw [show startsWith "### ".toList (escapeHtml seg0) = false from
      esc_sw '#' "## ".toList seg0 (by decide) (hhash seg0 hs0)]
    simp
  have e2 : mapLines h2Seg (escapeHtml s) = escapeHtml s := by
    apply mapLines_id
    intro seg hsg
    obtain ⟨seg0, hs0, rfl⟩ := hseg seg hsg
    unfold h2Seg
    rw [show startsWith "## ".toList (escapeHtml seg0) = false from
      esc_sw '#' "# ".toList seg0 (by decide) (hhash seg0 hs0)]
    simp
  have e1 : mapLines h1Seg (escapeHtml s) = escapeHtml s := by
    apply mapLines_id
    intro seg hsg
    obtain ⟨seg0, hs0, rfl⟩ := hseg seg hsg
    unfold h1Seg
    rw [show startsWith "# ".toList (escapeHtml seg0) = false from
      esc_sw '#' [' '] seg0 (by decide) (hhash seg0 hs0)]
    simp
  unfold formatMarkdown
  rw [e3, e2, e1, boldGo_id _ hstar, italicGo_id _ hstar, inlineGo_id _ hbt,
    fenceGo_id _ hbt]
  apply mapLines_id
  intro seg hsg
  obtain ⟨seg0, hs0, rfl⟩ := hseg seg hsg
  unfold listSeg
  rw [esc_dash seg0 (h4 seg0 hs0)]
  simp

/-- Witness for C9: the renderer leaves the escaped form of the plain
two-line text `hello\nworld & co` unchanged. -/
theorem claim_C9_witness :
    formatMarkdown (escapeHtml "hello\nworld & co".toList) =
      escapeHtml "hello\nworld & co".toList :=
  claim_C9 "hello\nworld & co".toList (by decide) (by decide) (by decide)
    (by
      intro seg hsg
      have he : lineSegs "hello\nworld & co".toList =
          "hello".toList :: lineSegs "world & co".toList := by
        rw [lineSegs_eq]
        rw [show breakLine "hello\nworld & co".toList =
          ("hello".toList, '\n' :: "world & co".toList) from by decide]
        rfl
      rw [he, lineSegs_single "world & co".toList (by decide)] at hsg
      simp only [List.mem_cons, List.not_mem_nil, or_false] at hsg
      rcases hsg with rfl | rfl
      · decide
      · decide)


/-! ### Claim C3 (fixed rule order of the renderer) -/

/-- C3: `formatMarkdown` applies its rules in exactly the source order —
`### ` before `## ` before `# ` headings, then bold, then italic, then
single-backtick inline code, then triple-backtick fenced blocks, then
`- ` lines, each rule transforming the previous rule's output.  The
concrete cases witness order-dependent behaviour: bold runs before italic
(`***x***`), inline code consumes backtick pairs before the fence rule
sees them (triple-backtick input yields `<code>` wrappers, not a fenced
block), and consecutive `- ` lines stay unmerged single-item lists. -/
theorem claim_C3 :
    (∀ t, formatMarkdown t =
      mapLines listSeg
        (fenceGo
          (inlineGo
            (italicGo
              (boldGo
                (mapLines h1Seg
                  (mapLines h2Seg
                    (mapLines h3Seg t)))))))) ∧
    formatMarkdown "### x".toList = "<h3>x</h3>".toList ∧
    formatMarkdown "***x***".toList = "<strong><em>x</strong></em>".toList ∧
    formatMarkdown "`x`".toList = "<code>x</code>".toList ∧
    formatMarkdown "```x```".toList =
      "<code></code><code>x</code><code></code>".toList ∧
    formatMarkdown "- a\n- b".toList =
      "<ul><li>a</li></ul>\n<ul><li>b</li></ul>".toList := by
  refine ⟨fun t => rfl, ?_, ?_, ?_, ?_, ?_⟩ <;>
    simp [formatMarkdown, mapLines, boldGo, italicGo, inlineGo, fenceGo,
      breakLine, h3Seg, h2Seg, h1Seg, listSeg, startsWith, btick,
      findBB, findIT, findIC, findFC]


/-! ### Claim C2: the `tokOk` scan machinery -/

theorem sw_trans {a b c : List Char} (hab : startsWith a b = true)
    (hbc : startsWith b c = true) : startsWith a c = true := by
  rw [sw_eq_append hbc, sw_eq_append hab, List.append_assoc]
  exact sw_append_self _ _

theorem drop_append_le {n : Nat} {x y : List Char} (h : n ≤ x.length) :
    (x ++ y).drop n = x.drop n ++ y := by
  rw [List.drop_append_eq_append_drop]
  rw [show n - x.length = 0 from by omega]
  rfl

theorem tokOk_nil : tokOk [] = true := by simp [tokOk]

theorem tokOk_lt_some {rest r : List Char}
    (h : tagRems.find? (fun e => startsWith e rest) = some r) :
    tokOk ('<' :: rest) = tokOk (rest.drop r.length) := by
  simp only [tokOk, if_true]
  rw [h]

theorem tokOk_lt_none {rest : List Char}
    (h : tagRems.find? (fun e => startsWith e rest) = none) :
    tokOk ('<' :: rest) = false := by
  simp only [tokOk, if_true]
  rw [h]

theorem tokOk_gt (rest : List Char) : tokOk ('>' :: rest) = false := by
  simp [tokOk]

theorem tokOk_amp (rest : List Char) :
    tokOk ('&' :: rest) =
      (entTails.any (fun e => startsWith e rest) && tokOk rest) := by
  simp [tokOk]

theorem tokOk_plain {c : Char} (hc : plainChar c = true) (rest : List Char) :
    tokOk (c :: rest) = tokOk rest := by
  unfold plainChar at hc
  simp only [Bool.not_eq_true', Bool.or_eq_false_iff, decide_eq_false_iff_not] at hc
  obtain ⟨⟨hl, hg⟩, ha⟩ := hc
  simp only [tokOk]
  rw [if_neg hl, if_neg hg, if_neg ha]

theorem tokOk_allPlain {w : List Char} (h : ∀ c ∈ w, plainChar c = true)
    (x : List Char) : tokOk (w ++ x) = tokOk x := by
  induction w with
  | nil => rfl
  | cons c w2 ih =>
    rw [List.cons_append, tokOk_plain (h c (List.mem_cons_self _ _)),
      ih (fun a ha => h a (List.mem_cons_of_mem _ ha))]

theorem tokOk_tag {r : List Char} (hr : r ∈ tagRems) (x : List Char) :
    tokOk (('<' :: r) ++ x) = tokOk x := by
  rw [List.cons_append]
  have hfind : tagRems.find? (fun e => startsWith e (r ++ x)) = some r := by
    apply findUnique _ _ r hr (sw_append_self r x)
    intro e he hsw
    by_cases hlen : e.length ≤ r.length
    · exact tagRems_pf e he r hr (sw_restrict hsw hlen)
    · push_neg at hlen
      exact (tagRems_pf r hr e he
        (sw_of_le (sw_append_self r x) hsw (le_of_lt hlen))).symm
  rw [tokOk_lt_some hfind, List.drop_left]

theorem tokOk_tag_cons {r : List Char} (hr : r ∈ tagRems) (x : List Char) :
    tokOk ('<' :: (r ++ x)) = tokOk x := by
  rw [← List.cons_append]
  exact tokOk_tag hr x

theorem tokOk_entity {e : List Char} (he : e ∈ entTails) (x : List Char)
    (hx : tokOk x = true) : tokOk ('&' :: (e ++ x)) = true := by
  rw [tokOk_amp]
  simp only [Bool.and_eq_true]
  refine ⟨?_, ?_⟩
  · exact List.any_eq_true.mpr ⟨e, he, sw_append_self e x⟩
  · rw [tokOk_allPlain (fun c hc => tails_plain e he c hc) x]
    exact hx

theorem tokOk_append {x : List Char} (hx : tokOk x = true) (y : List Char)
    (hy : tokOk y = true) : tokOk (x ++ y) = true := by
  induction x using tokOk.induct with
  | case1 => simpa using hy
  | case2 rest r hfind ih =>
    rw [tokOk_lt_some hfind] at hx
    have hrmem := List.mem_of_find?_eq_some hfind
    have hsw : startsWith r rest = true := by
      have := List.find?_some hfind
      simpa using this
    have hfind2 : tagRems.find? (fun e => startsWith e (rest ++ y)) = some r := by
      rw [findCongr _ (fun e => startsWith e rest) tagRems ?hpt]
      · exact hfind
      case hpt =>
        intro e he
        show startsWith e (rest ++ y) = startsWith e rest
        by_cases hswe : startsWith e rest = true
        · rw [sw_extend hswe y, hswe]
        · have h2 : startsWith e (rest ++ y) = false := by
            by_contra hc
            rw [Bool.not_eq_false] at hc
            by_cases hlen : e.length ≤ rest.length
            · exact hswe (sw_restrict hc hlen)
            · push_neg at hlen
              have hre : startsWith rest e = true :=
                sw_of_le (sw_append_self rest y) hc (le_of_lt hlen)
              have hr2 := tagRems_pf r hrmem e he (sw_trans hsw hre)
              subst hr2
              have h1 := sw_length hsw
              omega
          rw [h2]
          simpa using hswe
    rw [List.cons_append, tokOk_lt_some hfind2,
      drop_append_le (le_trans (sw_length hsw) (le_refl _)), ]
    exact ih hx
  | case3 rest hfind =>
    rw [tokOk_lt_none hfind] at hx
    simp at hx
  | case4 rest _ =>
    rw [tokOk_gt] at hx
    simp at hx
  | case5 rest _ _ ih =>
    rw [tokOk_amp] at hx
    simp only [Bool.and_eq_true] at hx
    obtain ⟨hany, hrest⟩ := hx
    obtain ⟨e, he, hsw⟩ := List.any_eq_true.mp hany
    rw [List.cons_append, tokOk_amp]
    simp only [Bool.and_eq_true]
    exact ⟨List.any_eq_true.mpr ⟨e, he, sw_extend hsw y⟩, ih hrest⟩
  | case6 c rest h1 h2 h3 ih =>
    have hp : plainChar c = true := by
      unfold plainChar
      simp [h1, h2, h3]
    rw [List.cons_append, tokOk_plain hp]
    rw [tokOk_plain hp] at hx
    exact ih hx


theorem cut_is_plain {c : Char} (hc : cutChar c = true) : plainChar c = true := by
  unfold cutChar at hc
  unfold plainChar
  simp only [Bool.or_eq_true, decide_eq_true_eq] at hc
  rcases hc with ((rfl | rfl) | rfl) | rfl <;> decide

theorem tokOk_split_aux : ∀ n (m : List Char), m.length ≤ n →
    ∀ {c : Char} (y : List Char), cutChar c = true →
    tokOk (m ++ c :: y) = true → tokOk m = true ∧ tokOk (c :: y) = true := by
  intro n
  induction n with
  | zero =>
    intro m hm c y _ h
    rw [List.length_eq_zero.mp (Nat.le_zero.mp hm)] at h ⊢
    exact ⟨tokOk_nil, h⟩
  | succ n ih =>
    intro m hm c y hc h
    cases m with
    | nil => exact ⟨tokOk_nil, h⟩
    | cons d m2 =>
      simp only [List.length_cons] at hm
      by_cases hd : d = '<'
      · subst hd
        rw [List.cons_append] at h
        cases hfind : tagRems.find? (fun e => startsWith e (m2 ++ c :: y)) with
        | none =>
          rw [tokOk_lt_none hfind] at h
          simp at h
        | some r =>
          rw [tokOk_lt_some hfind] at h
          have hrmem := List.mem_of_find?_eq_some hfind
          have hsw : startsWith r (m2 ++ c :: y) = true := by
            have := List.find?_some hfind
            simpa using this
          have hlen : r.length ≤ m2.length := by
            by_contra hlen
            push_neg at hlen
            have hcr : c ∈ r := mem_of_sw_long hsw hlen
            have := cut_rems r hrmem c hcr
            rw [hc] at this
            simp at this
          have hswm : startsWith r m2 = true := sw_restrict hsw hlen
          rw [drop_append_le hlen] at h
          have hrec := ih (m2.drop r.length)
            (by
              have := List.length_drop r.length m2
              omega) y hc h
          refine ⟨?_, hrec.2⟩
          have hfind2 : tagRems.find? (fun e => startsWith e m2) = some r := by
            apply findUnique _ _ r hrmem hswm
            intro e he hswe
            have hswe2 : startsWith e (m2 ++ c :: y) = true := sw_extend hswe _
            by_cases hlen2 : e.length ≤ r.length
            · exact tagRems_pf e he r hrmem (sw_of_le hswe2 hsw hlen2)
            · push_neg at hlen2
              exact (tagRems_pf r hrmem e he
                (sw_of_le hsw hswe2 (le_of_lt hlen2))).symm
          rw [tokOk_lt_some hfind2]
          exact hrec.1
      · by_cases hg : d = '>'
        · subst hg
          rw [List.cons_append, tokOk_gt] at h
          simp at h
        · by_cases ha : d = '&'
          · subst ha
            rw [List.cons_append, tokOk_amp] at h
            simp only [Bool.and_eq_true] at h
            obtain ⟨hany, hrest⟩ := h
            obtain ⟨e, he, hsw⟩ := List.any_eq_true.mp hany
            have hlen : e.length ≤ m2.length := by
              by_contra hlen
              push_neg at hlen
              have hcr : c ∈ e := mem_of_sw_long hsw hlen
              have := cut_tails e he c hcr
              rw [hc] at this
              simp at this
            have hrec := ih m2 (by omega) y hc hrest
            refine ⟨?_, hrec.2⟩
            rw [tokOk_amp]
            simp only [Bool.and_eq_true]
            exact ⟨List.any_eq_true.mpr ⟨e, he, sw_restrict hsw hlen⟩, hrec.1⟩
          · have hp : plainChar d = true := by
              unfold plainChar
              simp [hd, hg, ha]
            rw [List.cons_append, tokOk_plain hp] at h
            have hrec := ih m2 (by omega) y hc h
            exact ⟨by rw [tokOk_plain hp]; exact hrec.1, hrec.2⟩

theorem tokOk_split {c : Char} (m y : List Char) (hc : cutChar c = true)
    (h : tokOk (m ++ c :: y) = true) :
    tokOk m = true ∧ tokOk (c :: y) = true :=
  tokOk_split_aux m.length m (le_refl _) y hc h


theorem findBB_drop (l : List Char) (i : Nat) (h : findBB l = some i) :
    l.drop i = '*' :: '*' :: l.drop (i + 2) := by
  induction l using findBB.induct generalizing i with
  | case1 => simp [findBB] at h
  | case2 c => simp [findBB] at h
  | case3 c d rest hcd =>
    simp only [findBB, hcd, if_true] at h
    obtain ⟨rfl⟩ : i = 0 := by simpa using h.symm
    simp only [Bool.and_eq_true, decide_eq_true_eq] at hcd
    rw [hcd.1, hcd.2]
    rfl
  | case4 c d rest hcd hnl =>
    simp only [findBB, hcd, if_false, hnl, if_true] at h
    simp at h
  | case5 c d rest hcd hnl ih =>
    simp only [findBB, hcd, hnl, if_false] at h
    rcases Option.map_eq_some'.mp h with ⟨j, hj, rfl⟩
    have := ih j hj
    rw [show (j + 1 : Nat) + 2 = (j + 2) + 1 from by omega]
    simpa using this

theorem findIT_drop (l : List Char) (i : Nat) (h : findIT l = some i) :
    l.drop i = '*' :: l.drop (i + 1) := by
  induction l using findIT.induct generalizing i with
  | case1 => simp [findIT] at h
  | case2 rest =>
    have he : findIT ('*' :: rest) = some 0 := by simp [findIT]
    rw [he] at h
    injection h with h
    subst h
    rfl
  | case3 c rest hc hnl =>
    have he : findIT (c :: rest) = none := by simp [findIT, hc, hnl]
    rw [he] at h
    cases h
  | case4 c rest hc hnl ih =>
    have he : findIT (c :: rest) = (findIT rest).map (· + 1) := by
      simp [findIT, hc, hnl]
    rw [he] at h
    rcases Option.map_eq_some'.mp h with ⟨j, hj, rfl⟩
    have := ih j hj
    simpa using this

theorem findIC_drop (l : List Char) (i : Nat) (h : findIC l = some i) :
    l.drop i = btick :: l.drop (i + 1) := by
  induction l using findIC.induct generalizing i with
  | case1 => simp [findIC] at h
  | case2 rest =>
    have he : findIC (btick :: rest) = some 0 := by simp [findIC]
    rw [he] at h
    injection h with h
    subst h
    rfl
  | case3 rest hr =>
    have he : findIC ('\r' :: rest) = none := by simp [findIC, hr]
    rw [he] at h
    cases h
  | case4 c rest hc hr ih =>
    have he : findIC (c :: rest) = (findIC rest).map (· + 1) := by
      simp [findIC, hc, hr]
    rw [he] at h
    rcases Option.map_eq_some'.mp h with ⟨j, hj, rfl⟩
    have := ih j hj
    simpa using this

theorem findIC_take (l : List Char) (i : Nat) (h : findIC l = some i) :
    btick ∉ l.take i := by
  induction l using findIC.induct generalizing i with
  | case1 => simp [findIC] at h
  | case2 rest =>
    have he : findIC (btick :: rest) = some 0 := by simp [findIC]
    rw [he] at h
    injection h with h
    subst h
    simp
  | case3 rest hr =>
    have he : findIC ('\r' :: rest) = none := by simp [findIC, hr]
    rw [he] at h
    cases h
  | case4 c rest hc hr ih =>
    have he : findIC (c :: rest) = (findIC rest).map (· + 1) := by
      simp [findIC, hc, hr]
    rw [he] at h
    rcases Option.map_eq_some'.mp h with ⟨j, hj, rfl⟩
    rw [List.take_succ_cons]
    intro hm
    rcases List.mem_cons.mp hm with hm | hm
    · exact hc hm.symm
    · exact ih j hj hm


theorem boldGo_tokOk_aux : ∀ n (l : List Char), l.length ≤ n →
    tokOk l = true → tokOk (boldGo l) = true := by
  intro n
  induction n with
  | zero =>
    intro l hl h
    rw [List.length_eq_zero.mp (Nat.le_zero.mp hl)]
    rw [boldGo_nil]
    exact tokOk_nil
  | succ n ih =>
    intro l hl h
    cases l with
    | nil =>
      rw [boldGo_nil]
      exact tokOk_nil
    | cons c l2 =>
      cases l2 with
      | nil =>
        rw [boldGo_one]
        exact h
      | cons d rest =>
        simp only [List.length_cons] at hl
        by_cases hop : c = '*' ∧ d = '*'
        · obtain ⟨rfl, rfl⟩ := hop
          cases hf : findBB rest with
          | some i =>
            rw [boldGo_open rest i hf]
            rw [tokOk_plain (by decide), tokOk_plain (by decide)] at h
            have hdec : rest = rest.take i ++ '*' :: '*' :: rest.drop (i + 2) := by
              conv_lhs => rw [← List.take_append_drop i rest]
              rw [findBB_drop rest i hf]
            rw [hdec] at h
            have hsp := tokOk_split _ _ (by decide) h
            have hdrop : tokOk (rest.drop (i + 2)) = true := by
              have h2 := hsp.2
              rw [tokOk_plain (by decide), tokOk_plain (by decide)] at h2
              exact h2
            have hbg : tokOk (boldGo (rest.drop (i + 2))) = true := by
              apply ih
              · have := List.length_drop (i + 2) rest
                omega
              · exact hdrop
            have hfinal : tokOk ("</strong>".toList ++
                boldGo (rest.drop (i + 2))) = true := by
              rw [show "</strong>".toList ++ boldGo (rest.drop (i + 2)) =
                '<' :: ("/strong>".toList ++ boldGo (rest.drop (i + 2))) by rfl,
                tokOk_tag_cons (by decide : "/strong>".toList ∈ tagRems)]
              exact hbg
            have h2 : tokOk (rest.take i ++ ("</strong>".toList ++
                boldGo (rest.drop (i + 2)))) = true :=
              tokOk_append hsp.1 _ hfinal
            rw [show "<strong>".toList ++ rest.take i ++ "</strong>".toList ++
                boldGo (rest.drop (i + 2)) =
              '<' :: ("strong>".toList ++ (rest.take i ++ ("</strong>".toList ++
                boldGo (rest.drop (i + 2))))) by
                simp only [List.append_assoc]; rfl,
              tokOk_tag_cons (by decide : "strong>".toList ∈ tagRems)]
            exact h2
          | none =>
            rw [boldGo_fail rest hf]
            rw [tokOk_plain (by decide)] at h
            rw [tokOk_plain (by decide)]
            exact ih ('*' :: rest) (by simp only [List.length_cons]; omega) h
        · rw [boldGo_cons2 c d rest hop]
          by_cases hlt : c = '<'
          · subst hlt
            cases hfind : tagRems.find? (fun e => startsWith e (d :: rest)) with
            | none =>
              rw [tokOk_lt_none hfind] at h
              simp at h
            | some r =>
              rw [tokOk_lt_some hfind] at h
              have hrmem := List.mem_of_find?_eq_some hfind
              have hsw : startsWith r (d :: rest) = true := by
                simpa using List.find?_some hfind
              have hcopy : boldGo (d :: rest) =
                  r ++ boldGo ((d :: rest).drop r.length) := by
                conv_lhs => rw [sw_eq_append hsw]
                exact boldGo_copy r _ (rems_no_cut r hrmem).1
              rw [hcopy, tokOk_tag_cons hrmem]
              apply ih
              · have := List.length_drop r.length (d :: rest)
                simp only [List.length_cons] at this
                omega
              · exact h
          · by_cases hgt : c = '>'
            · subst hgt
              rw [tokOk_gt] at h
              simp at h
            · by_cases hamp : c = '&'
              · subst hamp
                rw [tokOk_amp] at h
                simp only [Bool.and_eq_true] at h
                obtain ⟨hany, hrest⟩ := h
                obtain ⟨e, he, hsw⟩ := List.any_eq_true.mp hany
                have hnostar : '*' ∉ e := by
                  intro hm
                  have := cut_tails e he '*' hm
                  rw [show cutChar '*' = true from by decide] at this
                  cases this
                have hcopy : boldGo (d :: rest) =
                    e ++ boldGo ((d :: rest).drop e.length) := by
                  conv_lhs => rw [sw_eq_append hsw]
                  exact boldGo_copy e _ hnostar
                rw [tokOk_amp]
                simp only [Bool.and_eq_true]
                constructor
                · refine List.any_eq_true.mpr ⟨e, he, ?_⟩
                  rw [hcopy]
                  exact sw_append_self e _
                · exact ih (d :: rest) (by simp only [List.length_cons]; omega)
                    hrest
              · have hp : plainChar c = true := by
                  unfold plainChar
                  simp [hlt, hgt, hamp]
                rw [tokOk_plain hp] at h
                rw [tokOk_plain hp]
                exact ih (d :: rest) (by simp only [List.length_cons]; omega) h

theorem boldGo_tokOk (l : List Char) (h : tokOk l = true) :
    tokOk (boldGo l) = true :=
  boldGo_tokOk_aux l.length l (le_refl _) h

theorem italicGo_tokOk_aux : ∀ n (l : List Char), l.length ≤ n →
    tokOk l = true → tokOk (italicGo l) = true := by
  intro n
  induction n with
  | zero =>
    intro l hl h
    rw [List.length_eq_zero.mp (Nat.le_zero.mp hl)]
    rw [italicGo_nil]
    exact tokOk_nil
  | succ n ih =>
    intro l hl h
    cases l with
    | nil =>
      rw [italicGo_nil]
      exact tokOk_nil
    | cons c rest =>
      simp only [List.length_cons] at hl
      by_cases hop : c = '*'
      · subst hop
        cases hf : findIT rest with
        | some i =>
          rw [italicGo_open rest i hf]
          rw [tokOk_plain (by decide)] at h
          have hdec : rest = rest.take i ++ '*' :: rest.drop (i + 1) := by
            conv_lhs => rw [← List.take_append_drop i rest]
            rw [findIT_drop rest i hf]
          rw [hdec] at h
          have hsp := tokOk_split _ _ (by decide) h
          have hdrop : tokOk (rest.drop (i + 1)) = true := by
            have h2 := hsp.2
            rw [tokOk_plain (by decide)] at h2
            exact h2
          have hig : tokOk (italicGo (rest.drop (i + 1))) = true := by
            apply ih
            · have := List.length_drop (i + 1) rest
              omega
            · exact hdrop
          have hfinal : tokOk ("</em>".toList ++
              italicGo (rest.drop (i + 1))) = true := by
            rw [show "</em>".toList ++ italicGo (rest.drop (i + 1)) =
              '<' :: ("/em>".toList ++ italicGo (rest.drop (i + 1))) by rfl,
              tokOk_tag_cons (by decide : "/em>".toList ∈ tagRems)]
            exact hig
          have h2 : tokOk (rest.take i ++ ("</em>".toList ++
              italicGo (rest.drop (i + 1)))) = true :=
            tokOk_append hsp.1 _ hfinal
          rw [show "<em>".toList ++ rest.take i ++ "</em>".toList ++
              italicGo (rest.drop (i + 1)) =
            '<' :: ("em>".toList ++ (rest.take i ++ ("</em>".toList ++
              italicGo (rest.drop (i + 1))))) by
              simp only [List.append_assoc]; rfl,
            tokOk_tag_cons (by decide : "em>".toList ∈ tagRems)]
          exact h2
        | none =>
          rw [italicGo_fail rest hf]
          rw [tokOk_plain (by decide)] at h
          rw [tokOk_plain (by decide)]
          exact ih rest (by omega) h
      · rw [italicGo_cons c rest hop]
        by_cases hlt : c = '<'
        · subst hlt
          cases hfind : tagRems.find? (fun e => startsWith e rest) with
          | none =>
            rw [tokOk_lt_none hfind] at h
            simp at h
          | some r =>
            rw [tokOk_lt_some hfind] at h
            have hrmem := List.mem_of_find?_eq_some hfind
            have hsw : startsWith r rest = true := by
              simpa using List.find?_some hfind
            have hcopy : italicGo rest =
                r ++ italicGo (rest.drop r.length) := by
              conv_lhs => rw [sw_eq_append hsw]
              exact italicGo_copy r _ (rems_no_cut r hrmem).1
            rw [hcopy, tokOk_tag_cons hrmem]
            apply ih
            · have := List.length_drop r.length rest
              omega
            · exact h
        · by_cases hgt : c = '>'
          · subst hgt
            rw [tokOk_gt] at h
            simp at h
          · by_cases hamp : c = '&'
            · subst hamp
              rw [tokOk_amp] at h
              simp only [Bool.and_eq_true] at h
              obtain ⟨hany, hrest⟩ := h
              obtain ⟨e, he, hsw⟩ := List.any_eq_true.mp hany
              have hnostar : '*' ∉ e := by
                intro hm
                have := cut_tails e he '*' hm
                rw [show cutChar '*' = true from by decide] at this
                cases this
              have hcopy : italicGo rest =
                  e ++ italicGo (rest.drop e.length) := by
                conv_lhs => rw [sw_eq_append hsw]
                exact italicGo_copy e _ hnostar
              rw [tokOk_amp]
              simp only [Bool.and_eq_true]
              constructor
              · refine List.any_eq_true.mpr ⟨e, he, ?_⟩
                rw [hcopy]
                exact sw_append_self e _
              · exact ih rest (by omega) hrest
            · have hp : plainChar c = true := by
                unfold plainChar
                simp [hlt, hgt, hamp]
              rw [tokOk_plain hp] at h
              rw [tokOk_plain hp]
              exact ih rest (by omega) h

theorem italicGo_tokOk (l : List Char) (h : tokOk l = true) :
    tokOk (italicGo l) = true :=
  italicGo_tokOk_aux l.length l (le_refl _) h

theorem inlineGo_tokOk_aux : ∀ n (l : List Char), l.length ≤ n →
    tokOk l = true → tokOk (inlineGo l) = true := by
  intro n
  induction n with
  | zero =>
    intro l hl h
    rw [List.length_eq_zero.mp (Nat.le_zero.mp hl)]
    rw [inlineGo_nil]
    exact tokOk_nil
  | succ n ih =>
    intro l hl h
    cases l with
    | nil =>
      rw [inlineGo_nil]
      exact tokOk_nil
    | cons c rest =>
      simp only [List.length_cons] at hl
      by_cases hop : c = btick
      · subst hop
        cases hf : findIC rest with
        | some i =>
          rw [inlineGo_open rest i hf]
          rw [tokOk_plain (by decide)] at h
          have hdec : rest = rest.take i ++ btick :: rest.drop (i + 1) := by
            conv_lhs => rw [← List.take_append_drop i rest]
            rw [findIC_drop rest i hf]
          rw [hdec] at h
          have hsp := tokOk_split _ _ (by decide) h
          have hdrop : tokOk (rest.drop (i + 1)) = true := by
            have h2 := hsp.2
            rw [tokOk_plain (by decide)] at h2
            exact h2
          have hig : tokOk (inlineGo (rest.drop (i + 1))) = true := by
            apply ih
            · have := List.length_drop (i + 1) rest
              omega
            · exact hdrop
          have hfinal : tokOk ("</code>".toList ++
              inlineGo (rest.drop (i + 1))) = true := by
            rw [show "</code>".toList ++ inlineGo (rest.drop (i + 1)) =
              '<' :: ("/code>".toList ++ inlineGo (rest.drop (i + 1))) by rfl,
              tokOk_tag_cons (by decide : "/code>".toList ∈ tagRems)]
            exact hig
          have h2 : tokOk (rest.take i ++ ("</code>".toList ++
              inlineGo (rest.drop (i + 1)))) = true :=
            tokOk_append hsp.1 _ hfinal
          rw [show "<code>".toList ++ rest.take i ++ "</code>".toList ++
              inlineGo (rest.drop (i + 1)) =
            '<' :: ("code>".toList ++ (rest.take i ++ ("</code>".toList ++
              inlineGo (rest.drop (i + 1))))) by
              simp only [List.append_assoc]; rfl,
            tokOk_tag_cons (by decide : "code>".toList ∈ tagRems)]
          exact h2
        | none =>
          rw [inlineGo_fail rest hf]
          rw [tokOk_plain (by decide)] at h
          rw [tokOk_plain (by decide)]
          exact ih rest (by omega) h
      · rw [inlineGo_cons c rest hop]
        by_cases hlt : c = '<'
        · subst hlt
          cases hfind : tagRems.find? (fun e => startsWith e rest) with
          | none =>
            rw [tokOk_lt_none hfind] at h
            simp at h
          | some r =>
            rw [tokOk_lt_some hfind] at h
            have hrmem := List.mem_of_find?_eq_some hfind
            have hsw : startsWith r rest = true := by
              simpa using List.find?_some hfind
            have hcopy : inlineGo rest =
                r ++ inlineGo (rest.drop r.length) := by
              conv_lhs => rw [sw_eq_append hsw]
              exact inlineGo_copy r _ (rems_no_cut r hrmem).2
            rw [hcopy, tokOk_tag_cons hrmem]
            apply ih
            · have := List.length_drop r.length rest
              omega
            · exact h
        · by_cases hgt : c = '>'
          · subst hgt
            rw [tokOk_gt] at h
            simp at h
          · by_cases hamp : c = '&'
            · subst hamp
              rw [tokOk_amp] at h
              simp only [Bool.and_eq_true] at h
              obtain ⟨hany, hrest⟩ := h
              obtain ⟨e, he, hsw⟩ := List.any_eq_true.mp hany
              have hnobt : btick ∉ e := by
                intro hm
                have := cut_tails e he btick hm
                rw [show cutChar btick = true from by decide] at this
                cases this
              have hcopy : inlineGo rest =
                  e ++ inlineGo (rest.drop e.length) := by
                conv_lhs => rw [sw_eq_append hsw]
                exact inlineGo_copy e _ hnobt
              rw [tokOk_amp]
              simp only [Bool.and_eq_true]
              constructor
              · refine List.any_eq_true.mpr ⟨e, he, ?_⟩
                rw [hcopy]
                exact sw_append_self e _
              · exact ih rest (by omega) hrest
            · have hp : plainChar c = true := by
                unfold plainChar
                simp [hlt, hgt, hamp]
              rw [tokOk_plain hp] at h
              rw [tokOk_plain hp]
              exact ih rest (by omega) h

theorem inlineGo_tokOk (l : List Char) (h : tokOk l = true) :
    tokOk (inlineGo l) = true :=
  inlineGo_tokOk_aux l.length l (le_refl _) h

theorem hasBB_cons (c : Char) (l : List Char) (hc : ¬c = btick) :
    hasBB (c :: l) = hasBB l := by
  cases l with
  | nil => simp [hasBB]
  | cons d r => simp [hasBB, hc]

theorem hasBB_append (w z : List Char) (hw : btick ∉ w)
    (hz : hasBB z = false) : hasBB (w ++ z) = false := by
  induction w with
  | nil => exact hz
  | cons a w2 ih =>
    have ha : ¬a = btick := fun hab => hw (hab ▸ List.mem_cons_self _ _)
    rw [List.cons_append, hasBB_cons a _ ha]
    exact ih (fun hm => hw (List.mem_cons_of_mem _ hm))

theorem findIC_none_head (l : List Char) (h : findIC l = none) :
    l.head? ≠ some btick := by
  cases l with
  | nil => simp
  | cons c r =>
    intro hh
    simp only [List.head?_cons, Option.some.injEq] at hh
    subst hh
    rw [show findIC (btick :: r) = some 0 from by simp [findIC]] at h
    cases h

theorem inlineGo_head (l : List Char) (h : l.head? ≠ some btick) :
    (inlineGo l).head? ≠ some btick := by
  cases l with
  | nil => simp [inlineGo_nil]
  | cons c r =>
    have hc : ¬c = btick := by
      intro hcb
      exact h (by rw [hcb]; rfl)
    rw [inlineGo_cons c r hc]
    simpa using hc

theorem inlineGo_noBB_aux : ∀ n (l : List Char), l.length ≤ n →
    hasBB (inlineGo l) = false := by
  intro n
  induction n with
  | zero =>
    intro l hl
    rw [List.length_eq_zero.mp (Nat.le_zero.mp hl), inlineGo_nil]
    simp [hasBB]
  | succ n ih =>
    intro l hl
    cases l with
    | nil =>
      rw [inlineGo_nil]
      simp [hasBB]
    | cons c rest =>
      simp only [List.length_cons] at hl
      by_cases hc : c = btick
      · subst hc
        cases hf : findIC rest with
        | some i =>
          rw [inlineGo_open rest i hf]
          rw [show "<code>".toList ++ rest.take i ++ "</code>".toList ++
              inlineGo (rest.drop (i + 1)) =
            ("<code>".toList ++ rest.take i ++ "</code>".toList) ++
              inlineGo (rest.drop (i + 1)) by simp [List.append_assoc]]
          apply hasBB_append
          · intro hm
            rcases List.mem_append.mp hm with hm | hm
            · rcases List.mem_append.mp hm with hm | hm
              · revert hm; decide
              · exact findIC_take rest i hf hm
            · revert hm; decide
          · apply ih
            have := List.length_drop (i + 1) rest
            omega
        | none =>
          rw [inlineGo_fail rest hf]
          have hh : (inlineGo rest).head? ≠ some btick :=
            inlineGo_head rest (findIC_none_head rest hf)
          have hbb : hasBB (inlineGo rest) = false := ih rest (by omega)
          cases hig : inlineGo rest with
          | nil => simp [hasBB]
          | cons d r =>
            have hd : ¬d = btick := by
              rw [hig] at hh
              simpa using hh
            rw [hig] at hbb
            simp [hasBB, hd, hbb]
      · rw [inlineGo_cons c rest hc, hasBB_cons c _ hc]
        exact ih rest (by omega)

theorem inlineGo_noBB (l : List Char) : hasBB (inlineGo l) = false :=
  inlineGo_noBB_aux l.length l (le_refl _)

theorem fenceGo_id_noBB_aux : ∀ n (l : List Char), l.length ≤ n →
    hasBB l = false → fenceGo l = l := by
  intro n
  induction n with
  | zero =>
    intro l hl _
    rw [List.length_eq_zero.mp (Nat.le_zero.mp hl), fenceGo_nil]
  | succ n ih =>
    intro l hl h
    cases l with
    | nil => exact fenceGo_nil
    | cons c l2 =>
      cases l2 with
      | nil => exact fenceGo_one c
      | cons d l3 =>
        cases l3 with
        | nil => exact fenceGo_two c d
        | cons e rest =>
          rw [show hasBB (c :: d :: e :: rest) =
              ((c = btick && d = btick) || hasBB (d :: e :: rest)) from by
            simp [hasBB]] at h
          rw [Bool.or_eq_false_iff] at h
          obtain ⟨hA, hB⟩ := h
          have hnd : ¬(c = btick ∧ d = btick ∧ e = btick) := by
            rintro ⟨rfl, rfl, -⟩
            simp at hA
          rw [fenceGo_cons3 c d e rest hnd,
            ih (d :: e :: rest) (by simp only [List.length_cons] at hl ⊢; omega) hB]

theorem fenceGo_id_noBB (l : List Char) (h : hasBB l = false) :
    fenceGo l = l :=
  fenceGo_id_noBB_aux l.length l (le_refl _) h

theorem mapLines_tokOk (f : List Char → List Char)
    (hf : ∀ seg, tokOk seg = true → tokOk (f seg) = true) :
    ∀ l, tokOk l = true → tokOk (mapLines f l) = true := by
  intro l
  induction l using lineSegs.induct with
  | case1 x h0 =>
    intro h
    rw [mapLines_eq, dif_pos h0]
    apply hf
    have hx : (breakLine x).1 = x := by
      conv_rhs => rw [← breakLine_join x]
      rw [h0, List.append_nil]
    rw [hx]
    exact h
  | case2 x h0 ih =>
    intro h
    rcases breakLine_snd_shape x with hsh | ⟨c0, t0, hsh, hsep⟩
    · exact absurd hsh h0
    have hcut : cutChar c0 = true := by rcases hsep with rfl | rfl <;> decide
    have hplain : plainChar c0 = true := by rcases hsep with rfl | rfl <;> decide
    have hx : (breakLine x).1 ++ c0 :: t0 = x := by
      conv_rhs => rw [← breakLine_join x]
      rw [hsh]
    rw [← hx] at h
    have hsp := tokOk_split _ _ hcut h
    have ht0 : tokOk t0 = true := by
      have h2 := hsp.2
      rw [tokOk_plain hplain] at h2
      exact h2
    rw [mapLines_eq, dif_neg h0]
    have hct := (List.head_cons_tail (breakLine x).2 h0).trans hsh
    injection hct with hh htl
    rw [hh, htl]
    apply tokOk_append (hf _ hsp.1)
    rw [tokOk_plain hplain]
    rw [htl] at ih
    exact ih ht0

theorem h3Seg_tokOk (seg : List Char) (h : tokOk seg = true) :
    tokOk (h3Seg seg) = true := by
  unfold h3Seg
  by_cases hsw : startsWith "### ".toList seg = true
  · rw [if_pos hsw]
    have hseg : seg = "### ".toList ++ seg.drop 4 := by
      have := sw_eq_append hsw
      rwa [(by decide : ("### ".toList).length = 4)] at this
    rw [hseg, tokOk_allPlain (by decide) _] at h
    have hcl : tokOk ("</h3>".toList) = true := by
      have h2 := tokOk_tag_cons (by decide : "/h3>".toList ∈ tagRems) []
      rw [List.append_nil] at h2
      rw [show "</h3>".toList = '<' :: "/h3>".toList by rfl, h2]
      exact tokOk_nil
    rw [show "<h3>".toList ++ seg.drop 4 ++ "</h3>".toList =
      '<' :: ("h3>".toList ++ (seg.drop 4 ++ "</h3>".toList)) by
        simp only [List.append_assoc]; rfl,
      tokOk_tag_cons (by decide : "h3>".toList ∈ tagRems)]
    exact tokOk_append h _ hcl
  · rw [if_neg hsw]
    exact h

theorem h2Seg_tokOk (seg : List Char) (h : tokOk seg = true) :
    tokOk (h2Seg seg) = true := by
  unfold h2Seg
  by_cases hsw : startsWith "## ".toList seg = true
  · rw [if_pos hsw]
    have hseg : seg = "## ".toList ++ seg.drop 3 := by
      have := sw_eq_append hsw
      rwa [(by decide : ("## ".toList).length = 3)] at this
    rw [hseg, tokOk_allPlain (by decide) _] at h
    have hcl : tokOk ("</h2>".toList) = true := by
      have h2 := tokOk_tag_cons (by decide : "/h2>".toList ∈ tagRems) []
      rw [List.append_nil] at h2
      rw [show "</h2>".toList = '<' :: "/h2>".toList by rfl, h2]
      exact tokOk_nil
    rw [show "<h2>".toList ++ seg.drop 3 ++ "</h2>".toList =
      '<' :: ("h2>".toList ++ (seg.drop 3 ++ "</h2>".toList)) by
        simp only [List.append_assoc]; rfl,
      tokOk_tag_cons (by decide : "h2>".toList ∈ tagRems)]
    exact tokOk_append h _ hcl
  · rw [if_neg hsw]
    exact h

theorem h1Seg_tokOk (seg : List Char) (h : tokOk seg = true) :
    tokOk (h1Seg seg) = true := by
  unfold h1Seg
  by_cases hsw : startsWith "# ".toList seg = true
  · rw [if_pos hsw]
    have hseg : seg = "# ".toList ++ seg.drop 2 := by
      have := sw_eq_append hsw
      rwa [(by decide : ("# ".toList).length = 2)] at this
    rw [hseg, tokOk_allPlain (by decide) _] at h
    have hcl : tokOk ("</h1>".toList) = true := by
      have h2 := tokOk_tag_cons (by decide : "/h1>".toList ∈ tagRems) []
      rw [List.append_nil] at h2
      rw [show "</h1>".toList = '<' :: "/h1>".toList by rfl, h2]
      exact tokOk_nil
    rw [show "<h1>".toList ++ seg.drop 2 ++ "</h1>".toList =
      '<' :: ("h1>".toList ++ (seg.drop 2 ++ "</h1>".toList)) by
        simp only [List.append_assoc]; rfl,
      tokOk_tag_cons (by decide : "h1>".toList ∈ tagRems)]
    exact tokOk_append h _ hcl
  · rw [if_neg hsw]
    exact h

theorem listSeg_tokOk (seg : List Char) (h : tokOk seg = true) :
    tokOk (listSeg seg) = true := by
  unfold listSeg
  by_cases hsw : startsWith "- ".toList seg = true
  · rw [if_pos hsw]
    have hseg : seg = "- ".toList ++ seg.drop 2 := by
      have := sw_eq_append hsw
      rwa [(by decide : ("- ".toList).length = 2)] at this
    rw [hseg, tokOk_allPlain (by decide) _] at h
    have hcl : tokOk ("</li></ul>".toList) = true := by
      rw [show "</li></ul>".toList =
        '<' :: ("/li>".toList ++ ('<' :: ("/ul>".toList ++ []))) by rfl,
        tokOk_tag_cons (by decide : "/li>".toList ∈ tagRems),
        tokOk_tag_cons (by decide : "/ul>".toList ∈ tagRems)]
      exact tokOk_nil
    rw [show "<ul><li>".toList ++ seg.drop 2 ++ "</li></ul>".toList =
      '<' :: ("ul>".toList ++ ('<' :: ("li>".toList ++
        (seg.drop 2 ++ "</li></ul>".toList)))) by
        simp only [List.append_assoc]; rfl,
      tokOk_tag_cons (by decide : "ul>".toList ∈ tagRems),
      tokOk_tag_cons (by decide : "li>".toList ∈ tagRems)]
    exact tokOk_append h _ hcl
  · rw [if_neg hsw]
    exact h

theorem escapeHtml_tokOk (l : List Char) : tokOk (escapeHtml l) = true := by
  induction l with
  | nil => exact tokOk_nil
  | cons c rest ih =>
    rw [escapeHtml_cons]
    unfold escChar
    split_ifs with h1 h2 h3 h4 h5
    · rw [show "&amp;".toList ++ escapeHtml rest =
        '&' :: ("amp;".toList ++ escapeHtml rest) by rfl]
      exact tokOk_entity (by decide) _ ih
    · rw [show "&lt;".toList ++ escapeHtml rest =
        '&' :: ("lt;".toList ++ escapeHtml rest) by rfl]
      exact tokOk_entity (by decide) _ ih
    · rw [show "&gt;".toList ++ escapeHtml rest =
        '&' :: ("gt;".toList ++ escapeHtml rest) by rfl]
      exact tokOk_entity (by decide) _ ih
    · rw [show "&quot;".toList ++ escapeHtml rest =
        '&' :: ("quot;".toList ++ escapeHtml rest) by rfl]
      exact tokOk_entity (by decide) _ ih
    · rw [show "&#039;".toList ++ escapeHtml rest =
        '&' :: ("#039;".toList ++ escapeHtml rest) by rfl]
      exact tokOk_entity (by decide) _ ih
    · have hp : plainChar c = true := by
        unfold plainChar
        simp [h1, h2, h3]
      rw [List.singleton_append, tokOk_plain hp]
      exact ih

theorem escChar_no_angle (c : Char) : '<' ∉ escChar c ∧ '>' ∉ escChar c := by
  unfold escChar
  split_ifs with h1 h2 h3 h4 h5
  · decide
  · decide
  · decide
  · decide
  · decide
  · constructor
    · intro hm
      simp only [List.mem_singleton] at hm
      exact h2 hm.symm
    · intro hm
      simp only [List.mem_singleton] at hm
      exact h3 hm.symm

theorem escapeHtml_no_angle (l : List Char) :
    '<' ∉ escapeHtml l ∧ '>' ∉ escapeHtml l := by
  induction l with
  | nil => simp [escapeHtml]
  | cons c rest ih =>
    rw [escapeHtml_cons]
    constructor
    · intro hm
      rcases List.mem_append.mp hm with hm | hm
      · exact (escChar_no_angle c).1 hm
      · exact ih.1 hm
    · intro hm
      rcases List.mem_append.mp hm with hm | hm
      · exact (escChar_no_angle c).2 hm
      · exact ih.2 hm

/-- C2: HTML-injection safety. For every input string `s` (including
adversarial input containing literal `<script>`), every `<` and `>` of `s`
is gone from `escapeHtml s` (it appears only as its entity), the escaped
text passes the `tokOk` scan (every `&` opens one of the five emitted
entities, and no `<`/`>` survives), and the full renderer output
`formatMarkdown (escapeHtml s)` still passes `tokOk`: each `<` opens one
of the sixteen renderer-emitted tags, each `&` opens an entity, bare `>`
never occurs — so no unescaped `<`/`>`/`&` originating from `s` reaches
the HTML. -/
theorem claim_C2 (s : List Char) :
    ('<' ∉ escapeHtml s ∧ '>' ∉ escapeHtml s) ∧
    tokOk (escapeHtml s) = true ∧
    tokOk (formatMarkdown (escapeHtml s)) = true := by
  refine ⟨escapeHtml_no_angle s, escapeHtml_tokOk s, ?_⟩
  unfold formatMarkdown
  have t3 := mapLines_tokOk h3Seg h3Seg_tokOk _ (escapeHtml_tokOk s)
  have t2 := mapLines_tokOk h2Seg h2Seg_tokOk _ t3
  have t1 := mapLines_tokOk h1Seg h1Seg_tokOk _ t2
  have tb := boldGo_tokOk _ t1
  have ti := italicGo_tokOk _ tb
  have tc := inlineGo_tokOk _ ti
  rw [fenceGo_id_noBB _ (inlineGo_noBB _)]
  exact mapLines_tokOk listSeg listSeg_tokOk _ tc

end LocalLLM








